import Mathlib

/-!
Shallow embedding of the cost-allocation engine in `backend/app.py`:
tree validation (`validate_tree`), numeric parsing (`_to_float`), weight
normalization (`_normalize_weights`) and the cascading allocation loop
(`allocate_costs`).  Monetary amounts and weights are modelled in exact
rational arithmetic (ℚ); Python `dict`s are modelled as insertion-ordered
association lists with the usual "update in place or append" semantics.
-/

namespace Cost

/-! ### Python-dict model: insertion-ordered association lists -/

abbrev Amt := List (String × ℚ)

/-- `d.get(k, dflt)` of a Python dict. -/
def dget : Amt → String → ℚ → ℚ
  | [], _, dflt => dflt
  | e :: d, k, dflt => if e.1 = k then e.2 else dget d k dflt

/-- `k in d` of a Python dict. -/
def dmem : Amt → String → Bool
  | [], _ => false
  | e :: d, k => e.1 == k || dmem d k

/-- `d[k] = v` of a Python dict: update the entry in place if the key is
present, else append a new entry at the end. -/
def dset : Amt → String → ℚ → Amt
  | [], k, v => [(k, v)]
  | e :: d, k, v => if e.1 = k then (k, v) :: d else e :: dset d k v

/-- `d[k] = d.get(k, 0.0) + v`. -/
def dadd (d : Amt) (k : String) (v : ℚ) : Amt :=
  dset d k (dget d k 0 + v)

def dkeys (d : Amt) : List String := d.map Prod.fst

/-- Sum of all ledger values. -/
def dsum (d : Amt) : ℚ := (d.map Prod.snd).sum

/-! ### Input row shapes (already column-mapped records, as the core receives them) -/

structure CoaRow where
  account_id : String
  parent_id : String
  name : String
deriving DecidableEq, Repr

structure CostRow where
  account_id : String
  amount : String
deriving DecidableEq, Repr

structure AllocRow where
  parent_id : String
  child_id : String
  weight : String
deriving DecidableEq, Repr

structure Account where
  account_id : String
  parent_id : String
  name : String
deriving DecidableEq, Repr

/-- Python `str.strip()` (no arguments): remove leading and trailing
whitespace.  Implemented over the character list so that it reduces inside
the kernel; the exotic Unicode whitespace accepted by Python beyond
space/tab/CR/LF is not modelled. -/
def pyStrip (s : String) : String :=
  ⟨((s.data.dropWhile Char.isWhitespace).reverse.dropWhile Char.isWhitespace).reverse⟩

/-- `s.replace(" ", "")`: drop every space character. -/
def stripSpaces (s : String) : String :=
  ⟨s.data.filter (fun c => c ≠ ' ')⟩

/-- `s.replace(",", ".")`: turn every comma into a period. -/
def commaToDot (s : String) : String :=
  ⟨s.data.map (fun c => if c = ',' then '.' else c)⟩

/-! ### `_to_float`: numeric parsing over exact rationals

The decimal-literal grammar of Python `float()` (optional sign, digits,
optional fractional part, optional exponent) is modelled over ℚ; the
floating-point-only special forms (`inf`, `nan`, digit underscores) are
outside the exact-arithmetic model. -/

def splitSign (cs : List Char) : Bool × List Char :=
  match cs with
  | '+' :: rest => (false, rest)
  | '-' :: rest => (true, rest)
  | _ => (false, cs)

def natOfDigits (ds : List Char) : ℕ :=
  ds.foldl (fun a c => a * 10 + (c.toNat - '0'.toNat)) 0

/-- Split a character list at the first `e`/`E` (mantissa, exponent-part-if-any). -/
def splitAtExp : List Char → List Char × Option (List Char)
  | [] => ([], none)
  | c :: cs =>
    if c = 'e' ∨ c = 'E' then ([], some cs)
    else
      let (m, e) := splitAtExp cs
      (c :: m, e)

/-- Unsigned mantissa: `digits`, `digits.digits`, `digits.`, or `.digits`. -/
def parseUMantissa (cs : List Char) : Option ℚ :=
  let intPart := cs.takeWhile Char.isDigit
  let rest := cs.dropWhile Char.isDigit
  match rest with
  | [] => if intPart = [] then none else some (natOfDigits intPart)
  | '.' :: frac =>
    if frac.all Char.isDigit ∧ (intPart ≠ [] ∨ frac ≠ []) then
      some ((natOfDigits intPart : ℚ) + (natOfDigits frac : ℚ) / ((10 : ℚ) ^ frac.length))
    else none
  | _ => none

/-- Signed exponent: nonempty digit string with optional sign. -/
def parseExpPart (cs : List Char) : Option ℤ :=
  let (neg, ds) := splitSign cs
  if ds ≠ [] ∧ ds.all Char.isDigit then
    some (if neg then -(natOfDigits ds : ℤ) else (natOfDigits ds : ℤ))
  else none

/-- Parse a decimal numeral (Python `float()` literal grammar) to ℚ. -/
def parseDecimal (s : String) : Option ℚ :=
  let (neg, cs) := splitSign s.data
  let (mant, ex) := splitAtExp cs
  match parseUMantissa mant with
  | none => none
  | some m =>
    match ex with
    | none => some (if neg then -m else m)
    | some e =>
      match parseExpPart e with
      | none => none
      | some z => some ((if neg then -m else m) * (10 : ℚ) ^ z)

/-- `_to_float` of `app.py`: trim, empty means zero, strip internal spaces,
comma decimal separator to period, then parse; an unparseable value is a
fatal error naming the raw value. -/
def to_float (val : String) : Except String ℚ :=
  let s := pyStrip val
  if s = "" then .ok 0
  else
    let s := commaToDot (stripSpaces s)
    match parseDecimal s with
    | some q => .ok q
    | none => .error ("Nieprawidłowa liczba: \x27" ++ val ++ "\x27")

/-! ### `validate_tree`: duplicate ids, dangling parents, DFS cycle detection -/

/-- Keep the first occurrence of every element (insertion order of a Python
`dict`/`set` built by repeated insertion). -/
def dedupFirst : List String → List String
  | [] => []
  | x :: xs => x :: (dedupFirst xs).filter (fun y => y ≠ x)

/-- Trimmed account ids, in row order. -/
def vids (rows : List CoaRow) : List String := rows.map (fun r => pyStrip r.account_id)

/-- Trimmed parent ids, in row order. -/
def vparents (rows : List CoaRow) : List String := rows.map (fun r => pyStrip r.parent_id)

/-- Ids whose running count reaches 2, in order of second occurrence
(the `dups` list of `validate_tree`). -/
def dupScan : List String → List String → List String
  | _, [] => []
  | seen, i :: rest =>
    if seen.count i = 1 then i :: dupScan (i :: seen) rest
    else dupScan (i :: seen) rest

def dupIds (ids : List String) : List String := dupScan [] ids

/-- Insertion sort on strings (Python `sorted` on a list of strings). -/
def insStr (x : String) : List String → List String
  | [] => [x]
  | y :: ys => if y ≤ x then y :: insStr x ys else x :: y :: ys

def sortStr : List String → List String
  | [] => []
  | x :: xs => insStr x (sortStr xs)

/-- String representation of a Python list of strings, as produced by the
f-string in the duplicate-ids message. -/
def pyStrList (xs : List String) : String :=
  "[" ++ String.intercalate ", " (xs.map (fun s => "\x27" ++ s ++ "\x27")) ++ "]"

/-- The `children` adjacency of `validate_tree`: direct children of `p`. -/
def vchildren (rows : List CoaRow) (p : String) : List String :=
  (rows.filter (fun r => pyStrip r.parent_id == p)).map (fun r => pyStrip r.account_id)

structure DfsSt where
  visiting : List String
  visited : List String
deriving Repr

-- Three-color DFS of `validate_tree`, with fuel; exhausted fuel reports a
-- cycle (fuel is chosen large enough that this branch is unreachable, which
-- the cycle-detection theorems establish).
mutual

def dfs (ch : String → List String) : ℕ → String → DfsSt → Bool × DfsSt
  | 0, _, st => (true, st)
  | fuel + 1, n, st =>
    if n ∈ st.visiting then (true, st)
    else if n ∈ st.visited then (false, st)
    else
      match dfsGo ch fuel (ch n) ⟨n :: st.visiting, st.visited⟩ with
      | (true, st2) => (true, st2)
      | (false, st2) => (false, ⟨st2.visiting.erase n, n :: st2.visited⟩)
termination_by fuel _ _ => (fuel, 0)

def dfsGo (ch : String → List String) : ℕ → List String → DfsSt → Bool × DfsSt
  | _, [], st => (false, st)
  | fuel, c :: cs, st =>
    match dfs ch fuel c st with
    | (true, st2) => (true, st2)
    | (false, st2) => dfsGo ch fuel cs st2
termination_by fuel l _ => (fuel, l.length + 1)

end

/-- Seed traversal over all roots, stopping at the first detected cycle
(the `for r in roots` loop of `validate_tree`). -/
def dfsSeeds (ch : String → List String) (fuel : ℕ) : List String → DfsSt → Bool
  | [], _ => false
  | r :: rs, st =>
    match dfs ch fuel r st with
    | (true, _) => true
    | (false, st2) => dfsSeeds ch fuel rs st2

def cycleMsg : String :=
  "Wykryto cykl w strukturze kont. Upewnij się, że drzewo nie zawiera zapętleń."

/-- All node names occurring anywhere (used only to size the DFS fuel). -/
def allNodes (rows : List CoaRow) : List String :=
  dedupFirst (vids rows ++ vparents rows ++ [""])

/-- The seeds of the DFS: every distinct parent value plus the root marker.
Python iterates a `set` in unspecified order; this fixes one enumeration of
that set, and the cycle-detection theorems show the outcome depends only on
the underlying set. -/
def vroots (rows : List CoaRow) : List String :=
  dedupFirst (vparents rows ++ [""])

def hasCycleB (rows : List CoaRow) : Bool :=
  dfsSeeds (vchildren rows) (allNodes rows).length.succ (vroots rows) ⟨[], []⟩

/-- `validate_tree` of `app.py`. -/
def validate_tree (rows : List CoaRow) : Bool × List String :=
  let ids := vids rows
  let parents := vparents rows
  let dups := dupIds ids
  let m1 : List String :=
    if dups = [] then []
    else ["Zduplikowane identyfikatory kont: " ++ pyStrList (sortStr dups)]
  let bad := sortStr (dedupFirst (parents.filter (fun p => p ≠ "" ∧ p ∉ ids)))
  let m2 : List String :=
    if bad = [] then []
    else ["Wskazano parent_id, których nie ma w wykazie kont: " ++ String.intercalate ", " bad]
  let m3 : List String := if hasCycleB rows then [cycleMsg] else []
  let msgs := m1 ++ m2 ++ m3
  (msgs = [], msgs)

/-! ### `_normalize_weights` and the allocation map -/

abbrev WMap := List (String × List (String × ℚ))

/-- Parse the allocation rows in order; the first unparseable weight aborts
the whole call (the `ValueError` raised inside the row loop of
`_normalize_weights`). -/
def parseAlloc : List AllocRow → Except String (List (String × String × ℚ))
  | [] => .ok []
  | r :: rs => do
    let w ← to_float r.weight
    let rest ← parseAlloc rs
    return (pyStrip r.parent_id, pyStrip r.child_id, w) :: rest

/-- The distinct parent ids, in first-occurrence order (insertion order of
the `per_parent` dict). -/
def firstKeys (l : List (String × String × ℚ)) : List String :=
  dedupFirst (l.map Prod.fst)

/-- The `(child, weight)` entries of one parent, in row order. -/
def groupOf (l : List (String × String × ℚ)) (p : String) : List (String × ℚ) :=
  (l.filter (fun t => t.1 == p)).map (fun t => (t.2.1, t.2.2))

/-- Raw per-parent weight sum (`tmp_sum`). -/
def rawSum (l : List (String × String × ℚ)) (p : String) : ℚ :=
  ((groupOf l p).map Prod.snd).sum

/-- `_normalize_weights` of `app.py` on already-parsed rows: divide each
weight by the per-parent sum, substituting divisor 1 for a zero sum. -/
def normalize_weights (l : List (String × String × ℚ)) : WMap :=
  (firstKeys l).map (fun p =>
    let s0 := rawSum l p
    let s := if s0 = 0 then 1 else s0
    (p, (groupOf l p).map (fun cw => (cw.1, cw.2 / s))))

/-! ### `allocate_costs` -/

def mkAccounts (rows : List CoaRow) : List Account :=
  rows.map (fun r => ⟨pyStrip r.account_id, pyStrip r.parent_id, pyStrip r.name⟩)

/-- The `children` adjacency of `allocate_costs`. -/
def childrenOf (accs : List Account) (p : String) : List String :=
  (accs.filter (fun a => a.parent_id == p)).map Account.account_id

/-- Parse the cost rows in order; the first unparseable amount aborts the
whole call. -/
def parseCosts : List CostRow → Except String (List (String × ℚ))
  | [] => .ok []
  | r :: rs => do
    let a ← to_float r.amount
    let rest ← parseCosts rs
    return (pyStrip r.account_id, a) :: rest

/-- Aggregate cost entries per account (`amt[acc] += ...`). -/
def buildAmt (pcs : List (String × ℚ)) : Amt :=
  pcs.foldl (fun d pc => dadd d pc.1 pc.2) []

/-- `_ = amt[a.account_id]` on a `defaultdict(float)`: insert a zero entry
for every declared account that has none yet. -/
def touchAccounts (accs : List Account) (d : Amt) : Amt :=
  accs.foldl (fun d a => if dmem d a.account_id then d else d ++ [(a.account_id, 0)]) d

/-- Restrict each parent's normalized entries to its direct children
(the `alloc_map` construction). -/
def mkAllocMap (accs : List Account) (nw : WMap) : WMap :=
  nw.map (fun pl => (pl.1, pl.2.filter (fun cw => cw.1 ∈ childrenOf accs pl.1)))

/-- `alloc_map.get(p, [])`. -/
def amGet : WMap → String → List (String × ℚ)
  | [], _ => []
  | e :: am, p => if e.1 = p then e.2 else amGet am p

/-- The `parents_ready` list of one pass: parents with a nonzero current
amount and a nonempty allocation entry list, in allocation-map order. -/
def parentsReady (am : WMap) (amt : Amt) : List String :=
  (am.filter (fun e => decide (dget amt e.1 0 ≠ 0) && !e.2.isEmpty)).map Prod.fst

def noteSkip (p : String) : String :=
  "Konto \x27" ++ p ++ "\x27 ma niewłaściwe/zerowe wagi albo brak dzieci – pomijam alokację."

def capNote : String :=
  "Osiągnięto limit iteracji – sprawdź, czy model nie powoduje pętli."

structure EngState where
  amt : Amt
  notes : List String
deriving Repr

/-- Distribute `amount` over `targets` in proportion to weight over `s`
(the inner `for c, w in targets` loop). -/
def distribute (amt : Amt) (amount s : ℚ) (targets : List (String × ℚ)) : Amt :=
  targets.foldl (fun d cw => dadd d cw.1 (amount * (cw.2 / s))) amt

/-- Process the ready parents of one pass in order, threading the progress
flag. -/
def runReady (am : WMap) : List String → EngState → Bool → EngState × Bool
  | [], st, prog => (st, prog)
  | p :: ps, st, prog =>
    let amount := dget st.amt p 0
    if amount = 0 then runReady am ps st prog
    else
      let targets := amGet am p
      let s := (targets.map Prod.snd).sum
      if s ≤ 0 ∨ targets = [] then
        runReady am ps ⟨st.amt, st.notes ++ [noteSkip p]⟩ prog
      else
        runReady am ps ⟨dset (distribute st.amt amount s targets) p 0, st.notes⟩ true

/-- The cascading `while` loop: `fuel` counts the remaining allowed passes
(`max_iters - it`), and the returned number is the final value of `it`. -/
def engineLoop (am : WMap) : ℕ → ℕ → EngState → EngState × ℕ
  | 0, it, st => (st, it)
  | fuel + 1, it, st =>
    let ready := parentsReady am st.amt
    if ready = [] then (st, it + 1)
    else
      match runReady am ready st false with
      | (st2, true) => engineLoop am fuel (it + 1) st2
      | (st2, false) => (st2, it + 1)

structure ResultRow where
  account_id : String
  parent_id : String
  name : String
  amount : ℚ
deriving DecidableEq, Repr

/-- The `by_id` dict-comprehension lookup: the last declared row for an id
wins; an unknown id yields `Account(acc_id, "", "")`. -/
def byId (accs : List Account) (i : String) : Account :=
  match accs.reverse.find? (fun a => a.account_id == i) with
  | some a => a
  | none => ⟨i, "", ""⟩

/-- Comparison of result rows by the Python sort key
`(parent_id, account_id)`, lexicographically ascending. -/
def rowLe (a b : ResultRow) : Bool :=
  decide (a.parent_id < b.parent_id ∨ (a.parent_id = b.parent_id ∧ a.account_id ≤ b.account_id))

def insRow (x : ResultRow) : List ResultRow → List ResultRow
  | [] => [x]
  | y :: ys => if rowLe y x then y :: insRow x ys else x :: y :: ys

/-- Stable insertion sort by `rowLe` (`result.sort(key=...)`). -/
def sortRows : List ResultRow → List ResultRow
  | [] => []
  | x :: xs => insRow x (sortRows xs)

/-- Core of `allocate_costs`: build the ledger and allocation map, run the
cascading loop, and return the settled engine state together with the final
pass counter. -/
def allocCore (coa : List CoaRow) (costs : List CostRow) (alloc : List AllocRow)
    (maxIters : ℕ) : Except String (EngState × ℕ × WMap × List Account) := do
  let accs := mkAccounts coa
  let pcs ← parseCosts costs
  let amt0 := touchAccounts accs (buildAmt pcs)
  let pal ← parseAlloc alloc
  let am := mkAllocMap accs (normalize_weights pal)
  let (st, it) := engineLoop am maxIters 0 ⟨amt0, []⟩
  return (st, it, am, accs)

/-- Build one output record from a ledger entry (the row constructed in the
final `for acc_id, amount in amt.items()` loop). -/
def mkRow (accs : List Account) (kv : String × ℚ) : ResultRow :=
  let a := byId accs kv.1
  ⟨a.account_id, a.parent_id, a.name, kv.2⟩

/-- `allocate_costs` of `app.py` (amounts kept as exact rationals; the
`f"{amount:.6f}"` output formatting is presentation only). -/
def allocate_costs (coa : List CoaRow) (costs : List CostRow) (alloc : List AllocRow)
    (maxIters : ℕ) : Except String (List ResultRow × List String) := do
  let (st, it, _, accs) ← allocCore coa costs alloc maxIters
  let notes := if maxIters ≤ it then st.notes ++ [capNote] else st.notes
  return (sortRows (st.amt.map (mkRow accs)), notes)

/-- Keys of an allocation map. -/
def wkeys (am : WMap) : List String := am.map Prod.fst

/-! ### Derived notions used in the claim statements -/

/-- The children edge relation of the chart: `x ⟶ y` when some row declares
account `y` with parent `x` (the edges the validator DFS follows). -/
def edge (rows : List CoaRow) (x y : String) : Prop :=
  y ∈ vchildren rows x

instance (rows : List CoaRow) (x y : String) : Decidable (edge rows x y) := by
  unfold edge; infer_instance

/-- The chart's parent links contain a directed cycle (possibly a self-loop). -/
def HasCycle (rows : List CoaRow) : Prop :=
  ∃ x, Relation.TransGen (edge rows) x x

/-- A parent with a usable allocation key: a nonempty filtered entry list
whose weight sum is positive (the condition under which the engine
distributes). -/
def capable (am : WMap) (p : String) : Prop :=
  amGet am p ≠ [] ∧ 0 < ((amGet am p).map Prod.snd).sum

/-- The Python sort key order on result rows, as a proposition. -/
def RowLeP (a b : ResultRow) : Prop :=
  a.parent_id < b.parent_id ∨ (a.parent_id = b.parent_id ∧ a.account_id ≤ b.account_id)

/-- Scale every weight of an entry list by a common factor. -/
def scaleSnd (c : ℚ) (l : List (String × ℚ)) : List (String × ℚ) :=
  l.map (fun cw => (cw.1, c * cw.2))

/-- Scale every parsed allocation row's weight by a per-parent factor. -/
def scaleTriples (lam : String → ℚ) (l : List (String × String × ℚ)) :
    List (String × String × ℚ) :=
  l.map (fun t => (t.1, t.2.1, lam t.1 * t.2.2))

/-- The largest level assigned to a declared account (for a level function
witnessing acyclicity, this is the maximum depth of the chart). -/
def maxLvl (rows : List CoaRow) (lvl : String → ℕ) : ℕ :=
  ((mkAccounts rows).map (fun a => lvl a.account_id)).foldr max 0

/-- A concrete level function witnessing acyclicity of the two-account
charts used in the termination scenarios. -/
def lvlAB (s : String) : ℕ := if s = "" then 0 else if s = "A" then 1 else 2

/-- The edge relation the validator DFS follows, parameterized by an
adjacency function. -/
def dfsRel (ch : String → List String) (x y : String) : Prop := y ∈ ch x

def ClosedSt (ch : String → List String) (st : DfsSt) : Prop :=
  ∀ v ∈ st.visited, ∀ c ∈ ch v, c ∈ st.visited

def DisjSt (st : DfsSt) : Prop := ∀ x ∈ st.visiting, x ∉ st.visited

def NoCycSt (ch : String → List String) (st : DfsSt) : Prop :=
  ∀ v ∈ st.visited, ¬ Relation.TransGen (dfsRel ch) v v

def freshCount (U : List String) (st : DfsSt) : ℕ :=
  (U.filter (fun x => x ∉ st.visiting ∧ x ∉ st.visited)).length

/-! ## Lemmas about the dictionary model -/

@[simp] theorem bindOk {ε α β : Type} (a : α) (f : α → Except ε β) :
    (Except.ok a >>= f) = f a := rfl

@[simp] theorem bindErr {ε α β : Type} (e : ε) (f : α → Except ε β) :
    (Except.error e >>= f : Except ε β) = Except.error e := rfl

theorem dget_dset_self (d : Amt) (k : String) (v dflt : ℚ) :
    dget (dset d k v) k dflt = v := by
  induction d with
  | nil => simp [dset, dget]
  | cons e d ih =>
    by_cases h : e.1 = k
    · simp [dset, h, dget]
    · simp [dset, h, dget, ih]

theorem dget_dset_ne (d : Amt) {k k' : String} (v dflt : ℚ) (h : k' ≠ k) :
    dget (dset d k v) k' dflt = dget d k' dflt := by
  have hkk : ¬ (k = k') := fun hh => h hh.symm
  induction d with
  | nil => simp [dset, dget, hkk]
  | cons e d ih =>
    by_cases he : e.1 = k
    · simp [dset, he, dget, hkk]
    · simp [dset, he, dget, ih]

theorem dget_dadd_self (d : Amt) (k : String) (v : ℚ) :
    dget (dadd d k v) k 0 = dget d k 0 + v :=
  dget_dset_self d k _ 0

theorem dget_dadd_ne (d : Amt) {k k' : String} (v dflt : ℚ) (h : k' ≠ k) :
    dget (dadd d k v) k' dflt = dget d k' dflt :=
  dget_dset_ne d _ dflt h

@[simp] theorem dsum_nil : dsum [] = 0 := rfl

theorem dsum_cons (e : String × ℚ) (d : Amt) : dsum (e :: d) = e.2 + dsum d := by
  simp [dsum]

theorem dsum_dset (d : Amt) (k : String) (v : ℚ) :
    dsum (dset d k v) = dsum d - dget d k 0 + v := by
  induction d with
  | nil => simp [dset, dsum, dget]
  | cons e d ih =>
    by_cases h : e.1 = k
    · simp [dset, h, dsum_cons, dget]; ring
    · simp [dset, h, dsum_cons, dget, ih]; ring

theorem dsum_dadd (d : Amt) (k : String) (v : ℚ) :
    dsum (dadd d k v) = dsum d + v := by
  simp [dadd, dsum_dset]; ring

@[simp] theorem dkeys_nil : dkeys [] = [] := rfl

@[simp] theorem dkeys_cons (e : String × ℚ) (d : Amt) :
    dkeys (e :: d) = e.1 :: dkeys d := rfl

theorem dkeys_dset (d : Amt) (k : String) (v : ℚ) :
    dkeys (dset d k v) = if k ∈ dkeys d then dkeys d else dkeys d ++ [k] := by
  induction d with
  | nil => simp [dset]
  | cons e d ih =>
    by_cases h : e.1 = k
    · have hmem : k ∈ dkeys (e :: d) := by simp [h.symm]
      rw [if_pos hmem]
      simp [dset, h]
    · have hne : k ≠ e.1 := fun hh => h hh.symm
      have hstep : dset (e :: d) k v = e :: dset d k v := by simp [dset, h]
      by_cases hk : k ∈ dkeys d
      · have : k ∈ dkeys (e :: d) := by simp [hk]
        rw [if_pos this, hstep]
        simp [ih, hk]
      · have : k ∉ dkeys (e :: d) := by simp [hne, hk]
        rw [if_neg this, hstep]
        simp [ih, hk]

theorem mem_dkeys_dset (d : Amt) (k : String) (v : ℚ) (x : String) :
    x ∈ dkeys (dset d k v) ↔ x ∈ dkeys d ∨ x = k := by
  rw [dkeys_dset]
  by_cases hk : k ∈ dkeys d
  · simp [hk]
    intro hx; exact hx ▸ hk
  · simp [hk]

theorem nodup_dkeys_dset (d : Amt) (k : String) (v : ℚ) (h : (dkeys d).Nodup) :
    (dkeys (dset d k v)).Nodup := by
  rw [dkeys_dset]
  by_cases hk : k ∈ dkeys d
  · simpa [hk] using h
  · simp [hk, List.nodup_append, h, hk]

theorem mem_dkeys_dadd (d : Amt) (k : String) (v : ℚ) (x : String) :
    x ∈ dkeys (dadd d k v) ↔ x ∈ dkeys d ∨ x = k :=
  mem_dkeys_dset d k _ x

theorem nodup_dkeys_dadd (d : Amt) (k : String) (v : ℚ) (h : (dkeys d).Nodup) :
    (dkeys (dadd d k v)).Nodup :=
  nodup_dkeys_dset d k _ h

theorem dget_eq_of_mem_nodup {d : Amt} {kv : String × ℚ} (hmem : kv ∈ d)
    (hnd : (dkeys d).Nodup) (dflt : ℚ) : dget d kv.1 dflt = kv.2 := by
  induction d with
  | nil => cases hmem
  | cons e d ih =>
    have hnd' := List.nodup_cons.mp (by simpa using hnd)
    rcases List.mem_cons.mp hmem with h | h
    · subst h; simp [dget]
    · have hne : e.1 ≠ kv.1 := by
        intro hh
        exact hnd'.1 (by rw [hh]; exact List.mem_map_of_mem Prod.fst h)
      simp [dget, hne]
      exact ih h hnd'.2

/-! ## Lemmas about `distribute`, the initial ledger and the cascading loop -/

@[simp] theorem distribute_nil (amt : Amt) (amount s : ℚ) :
    distribute amt amount s [] = amt := rfl

theorem distribute_cons (amt : Amt) (amount s : ℚ) (cw : String × ℚ)
    (ts : List (String × ℚ)) :
    distribute amt amount s (cw :: ts)
      = distribute (dadd amt cw.1 (amount * (cw.2 / s))) amount s ts := rfl

theorem dsum_distribute (amt : Amt) (amount s : ℚ) (targets : List (String × ℚ)) :
    dsum (distribute amt amount s targets)
      = dsum amt + (targets.map (fun cw => amount * (cw.2 / s))).sum := by
  induction targets generalizing amt with
  | nil => simp
  | cons cw ts ih =>
    rw [distribute_cons, ih, dsum_dadd]
    simp
    ring

theorem dget_distribute_ne (amt : Amt) (amount s : ℚ) (targets : List (String × ℚ))
    {x : String} (dflt : ℚ) (h : x ∉ targets.map Prod.fst) :
    dget (distribute amt amount s targets) x dflt = dget amt x dflt := by
  induction targets generalizing amt with
  | nil => simp
  | cons cw ts ih =>
    rw [List.map_cons, List.mem_cons] at h
    push_neg at h
    rw [distribute_cons, ih _ h.2, dget_dadd_ne _ _ _ h.1]

theorem mem_dkeys_distribute (amt : Amt) (amount s : ℚ) (targets : List (String × ℚ))
    {x : String} (h : x ∈ dkeys amt) :
    x ∈ dkeys (distribute amt amount s targets) := by
  induction targets generalizing amt with
  | nil => simpa using h
  | cons cw ts ih =>
    rw [distribute_cons]
    exact ih _ ((mem_dkeys_dadd amt cw.1 _ x).mpr (Or.inl h))

theorem nodup_dkeys_distribute (amt : Amt) (amount s : ℚ) (targets : List (String × ℚ))
    (h : (dkeys amt).Nodup) : (dkeys (distribute amt amount s targets)).Nodup := by
  induction targets generalizing amt with
  | nil => simpa using h
  | cons cw ts ih =>
    rw [distribute_cons]
    exact ih _ (nodup_dkeys_dadd amt cw.1 _ h)

/-- The total distributed to the targets is exactly the distributed amount,
because the engine re-normalizes by the current weight sum `s`. -/
theorem dsum_distribute_self (amt : Amt) (amount s : ℚ) (targets : List (String × ℚ))
    (hs : s = (targets.map Prod.snd).sum) (hs0 : s ≠ 0) :
    dsum (distribute amt amount s targets) = dsum amt + amount := by
  rw [dsum_distribute]
  have : (targets.map (fun cw => amount * (cw.2 / s))).sum
      = (targets.map (fun cw => (amount / s) * cw.2)).sum := by
    congr 1
    apply List.map_congr_left
    intro cw _
    ring
  rw [this]
  have h2 : (targets.map (fun cw => (amount / s) * cw.2)).sum
      = (amount / s) * (targets.map Prod.snd).sum := by
    rw [← List.sum_map_mul_left]
  rw [h2, ← hs, div_mul_cancel₀ amount hs0]

theorem dsum_buildAmt (pcs : List (String × ℚ)) :
    dsum (buildAmt pcs) = (pcs.map Prod.snd).sum := by
  have h : ∀ (d : Amt) (l : List (String × ℚ)),
      dsum (l.foldl (fun d pc => dadd d pc.1 pc.2) d) = dsum d + (l.map Prod.snd).sum := by
    intro d l
    induction l generalizing d with
    | nil => simp
    | cons pc l ih => simp [ih, dsum_dadd]; ring
  simpa using h [] pcs

@[simp] theorem touchAccounts_nil (d : Amt) : touchAccounts [] d = d := rfl

theorem touchAccounts_cons (a : Account) (accs : List Account) (d : Amt) :
    touchAccounts (a :: accs) d
      = touchAccounts accs (if dmem d a.account_id then d else d ++ [(a.account_id, 0)]) := by
  by_cases h : dmem d a.account_id <;> simp [touchAccounts, h]

theorem dsum_append_zero (d : Amt) (k : String) : dsum (d ++ [(k, 0)]) = dsum d := by
  simp [dsum]

theorem dsum_touchAccounts (accs : List Account) (d : Amt) :
    dsum (touchAccounts accs d) = dsum d := by
  induction accs generalizing d with
  | nil => simp
  | cons a accs ih =>
    rw [touchAccounts_cons]
    by_cases h : dmem d a.account_id
    · simp [h, ih]
    · simp [h, ih, dsum_append_zero]

/-! ## Lemmas about the allocation map -/

theorem nodup_dedupFirst (l : List String) : (dedupFirst l).Nodup := by
  induction l with
  | nil => simp [dedupFirst]
  | cons x xs ih =>
    simp only [dedupFirst]
    refine List.Nodup.cons ?_ (ih.filter _)
    intro hmem
    have := (List.mem_filter.mp hmem).2
    simp at this

theorem mem_dedupFirst (l : List String) (x : String) : x ∈ dedupFirst l ↔ x ∈ l := by
  induction l with
  | nil => simp [dedupFirst]
  | cons y ys ih =>
    simp only [dedupFirst, List.mem_cons]
    constructor
    · rintro (h | h)
      · exact Or.inl h
      · exact Or.inr (ih.mp (List.mem_filter.mp h).1)
    · rintro (h | h)
      · exact Or.inl h
      · by_cases hxy : x = y
        · exact Or.inl hxy
        · exact Or.inr (List.mem_filter.mpr ⟨ih.mpr h, by simpa using hxy⟩)

@[simp] theorem amGet_nil (p : String) : amGet [] p = [] := rfl

theorem amGet_cons (e : String × List (String × ℚ)) (am : WMap) (p : String) :
    amGet (e :: am) p = if e.1 = p then e.2 else amGet am p := rfl

@[simp] theorem wkeys_nil : wkeys [] = [] := rfl

@[simp] theorem wkeys_cons (e : String × List (String × ℚ)) (am : WMap) :
    wkeys (e :: am) = e.1 :: wkeys am := rfl

theorem amGet_eq_nil_of_not_mem {am : WMap} {p : String} (h : p ∉ wkeys am) :
    amGet am p = [] := by
  induction am with
  | nil => rfl
  | cons e am ih =>
    rw [wkeys_cons, List.mem_cons] at h
    push_neg at h
    rw [amGet_cons, if_neg (fun hh => h.1 hh.symm), ih h.2]

theorem mem_of_amGet_ne_nil {am : WMap} {p : String} (h : amGet am p ≠ []) :
    (p, amGet am p) ∈ am := by
  induction am with
  | nil => simp at h
  | cons e am ih =>
    by_cases he : e.1 = p
    · rw [amGet_cons, if_pos he]
      exact List.mem_cons.mpr (Or.inl (by rw [← he]))
    · rw [amGet_cons, if_neg he] at h ⊢
      exact List.mem_cons.mpr (Or.inr (ih h))

theorem amGet_eq_of_mem_nodup {am : WMap} {p : String} {l : List (String × ℚ)}
    (hmem : (p, l) ∈ am) (hnd : (wkeys am).Nodup) : amGet am p = l := by
  induction am with
  | nil => cases hmem
  | cons e am ih =>
    rw [wkeys_cons] at hnd
    have hnd' := List.nodup_cons.mp hnd
    rcases List.mem_cons.mp hmem with h | h
    · rw [← h, amGet_cons, if_pos rfl]
    · have hne : e.1 ≠ p := by
        intro hh
        exact hnd'.1 (by rw [hh]; exact List.mem_map_of_mem Prod.fst h)
      rw [amGet_cons, if_neg hne]
      exact ih h hnd'.2

theorem amGet_map_keys {ks : List String} {f : String → List (String × ℚ)} {p : String}
    (hp : p ∈ ks) (hnd : ks.Nodup) :
    amGet (ks.map (fun q => (q, f q))) p = f p := by
  induction ks with
  | nil => cases hp
  | cons k ks ih =>
    have hnd' := List.nodup_cons.mp hnd
    rcases List.mem_cons.mp hp with h | h
    · simp [amGet_cons, h]
    · have hne : k ≠ p := fun hh => hnd'.1 (hh ▸ h)
      simp only [List.map_cons, amGet_cons, if_neg hne]
      exact ih h hnd'.2

theorem wkeys_mkAllocMap (accs : List Account) (nw : WMap) :
    wkeys (mkAllocMap accs nw) = wkeys nw := by
  simp [wkeys, mkAllocMap, List.map_map]

theorem wkeys_normalize (l : List (String × String × ℚ)) :
    wkeys (normalize_weights l) = firstKeys l := by
  unfold wkeys normalize_weights
  rw [List.map_map]
  have hcomp : (Prod.fst ∘ fun p : String =>
      (p, (groupOf l p).map
        (fun cw => (cw.1, cw.2 / (if rawSum l p = 0 then 1 else rawSum l p)))))
      = fun p : String => p := rfl
  rw [hcomp, List.map_id']

theorem nodup_firstKeys (l : List (String × String × ℚ)) : (firstKeys l).Nodup :=
  nodup_dedupFirst _

theorem amGet_normalize {l : List (String × String × ℚ)} {p : String}
    (hp : p ∈ firstKeys l) :
    amGet (normalize_weights l) p
      = (groupOf l p).map
          (fun cw => (cw.1, cw.2 / (if rawSum l p = 0 then 1 else rawSum l p))) := by
  unfold normalize_weights
  exact amGet_map_keys hp (nodup_firstKeys l)

theorem mkAllocMap_cons (accs : List Account) (e : String × List (String × ℚ)) (nw : WMap) :
    mkAllocMap accs (e :: nw)
      = (e.1, e.2.filter (fun cw => cw.1 ∈ childrenOf accs e.1)) :: mkAllocMap accs nw := rfl

theorem amGet_mkAllocMap (accs : List Account) (nw : WMap) (p : String) :
    amGet (mkAllocMap accs nw) p
      = (amGet nw p).filter (fun cw => cw.1 ∈ childrenOf accs p) := by
  induction nw with
  | nil => simp [mkAllocMap]
  | cons e nw ih =>
    rw [mkAllocMap_cons, amGet_cons, amGet_cons]
    by_cases h : e.1 = p
    · rw [if_pos h, if_pos h, h]
    · rw [if_neg h, if_neg h]
      exact ih

theorem notMem_amGet_self {accs : List Account} (nw : WMap)
    (hself : ∀ a ∈ accs, a.account_id ≠ a.parent_id) (p : String) :
    p ∉ (amGet (mkAllocMap accs nw) p).map Prod.fst := by
  rw [amGet_mkAllocMap]
  intro hmem
  rcases List.mem_map.mp hmem with ⟨cw, hcw, hfst⟩
  have hch : cw.1 ∈ childrenOf accs p := by
    have := (List.mem_filter.mp hcw).2
    simpa using this
  rw [hfst] at hch
  rcases List.mem_map.mp hch with ⟨a, ha, haid⟩
  have hpar : a.parent_id = p := by
    have := (List.mem_filter.mp ha).2
    simpa using this
  exact hself a (List.mem_filter.mp ha).1 (haid.trans hpar.symm)

/-! ## Step equations and invariants of the cascading loop -/

@[simp] theorem runReady_nil (am : WMap) (st : EngState) (prog : Bool) :
    runReady am [] st prog = (st, prog) := rfl

theorem runReady_cons_zero {am : WMap} {p : String} {st : EngState}
    (ps : List String) (prog : Bool) (h : dget st.amt p 0 = 0) :
    runReady am (p :: ps) st prog = runReady am ps st prog := by
  simp [runReady, h]

theorem runReady_cons_note {am : WMap} {p : String} {st : EngState}
    (ps : List String) (prog : Bool) (h : dget st.amt p 0 ≠ 0)
    (hc : ((amGet am p).map Prod.snd).sum ≤ 0 ∨ amGet am p = []) :
    runReady am (p :: ps) st prog
      = runReady am ps ⟨st.amt, st.notes ++ [noteSkip p]⟩ prog := by
  simp [runReady, h, hc]

theorem runReady_cons_dist {am : WMap} {p : String} {st : EngState}
    (ps : List String) (prog : Bool) (h : dget st.amt p 0 ≠ 0)
    (hc : ¬(((amGet am p).map Prod.snd).sum ≤ 0 ∨ amGet am p = [])) :
    runReady am (p :: ps) st prog
      = runReady am ps
          ⟨dset (distribute st.amt (dget st.amt p 0) ((amGet am p).map Prod.snd).sum
              (amGet am p)) p 0, st.notes⟩ true := by
  simp [runReady, h, hc]

theorem runReady_dsum (am : WMap) (hns : ∀ p, p ∉ (amGet am p).map Prod.fst)
    (ps : List String) :
    ∀ (st : EngState) (prog : Bool),
      dsum (runReady am ps st prog).1.amt = dsum st.amt := by
  induction ps with
  | nil => intro st prog; rfl
  | cons p ps ih =>
    intro st prog
    by_cases h0 : dget st.amt p 0 = 0
    · rw [runReady_cons_zero ps prog h0]; exact ih st prog
    · by_cases hc : ((amGet am p).map Prod.snd).sum ≤ 0 ∨ amGet am p = []
      · rw [runReady_cons_note ps prog h0 hc]
        exact ih _ prog
      · rw [runReady_cons_dist ps prog h0 hc]
        rw [ih _ true]
        push_neg at hc
        have hs0 : ((amGet am p).map Prod.snd).sum ≠ 0 := ne_of_gt hc.1
        show dsum (dset (distribute st.amt _ _ _) p 0) = dsum st.amt
        rw [dsum_dset, dget_distribute_ne _ _ _ _ _ (hns p),
          dsum_distribute_self _ _ _ _ rfl hs0]
        ring

theorem runReady_keys_mem (am : WMap) (ps : List String) (st : EngState) (prog : Bool)
    {x : String} (h : x ∈ dkeys st.amt) :
    x ∈ dkeys (runReady am ps st prog).1.amt := by
  induction ps generalizing st prog with
  | nil => simpa using h
  | cons p ps ih =>
    by_cases h0 : dget st.amt p 0 = 0
    · rw [runReady_cons_zero ps prog h0]; exact ih _ _ h
    · by_cases hc : ((amGet am p).map Prod.snd).sum ≤ 0 ∨ amGet am p = []
      · rw [runReady_cons_note ps prog h0 hc]
        exact ih _ _ h
      · rw [runReady_cons_dist ps prog h0 hc]
        refine ih _ _ ?_
        show x ∈ dkeys (dset (distribute st.amt _ _ _) p 0)
        exact (mem_dkeys_dset _ p 0 x).mpr (Or.inl (mem_dkeys_distribute _ _ _ _ h))

theorem runReady_keys_nodup (am : WMap) (ps : List String) (st : EngState) (prog : Bool)
    (h : (dkeys st.amt).Nodup) :
    (dkeys (runReady am ps st prog).1.amt).Nodup := by
  induction ps generalizing st prog with
  | nil => simpa using h
  | cons p ps ih =>
    by_cases h0 : dget st.amt p 0 = 0
    · rw [runReady_cons_zero ps prog h0]; exact ih _ _ h
    · by_cases hc : ((amGet am p).map Prod.snd).sum ≤ 0 ∨ amGet am p = []
      · rw [runReady_cons_note ps prog h0 hc]
        exact ih _ _ h
      · rw [runReady_cons_dist ps prog h0 hc]
        refine ih _ _ ?_
        exact nodup_dkeys_dset _ p 0 (nodup_dkeys_distribute _ _ _ _ h)

theorem runReady_notes (am : WMap) (ps : List String) (st : EngState) (prog : Bool) :
    ∃ l, (runReady am ps st prog).1.notes = st.notes ++ l
      ∧ ∀ n ∈ l, ∃ q, n = noteSkip q := by
  induction ps generalizing st prog with
  | nil => exact ⟨[], by simp⟩
  | cons p ps ih =>
    by_cases h0 : dget st.amt p 0 = 0
    · rw [runReady_cons_zero ps prog h0]; exact ih st prog
    · by_cases hc : ((amGet am p).map Prod.snd).sum ≤ 0 ∨ amGet am p = []
      · rw [runReady_cons_note ps prog h0 hc]
        rcases ih ⟨st.amt, st.notes ++ [noteSkip p]⟩ prog with ⟨l, hl, hall⟩
        refine ⟨noteSkip p :: l, ?_, ?_⟩
        · rw [hl]; simp
        · intro n hn
          rcases List.mem_cons.mp hn with h | h
          · exact ⟨p, h⟩
          · exact hall n h
      · rw [runReady_cons_dist ps prog h0 hc]
        exact ih _ true

/-- A parent in the ready list has a nonzero starting amount and a nonempty
entry list. -/
theorem mem_parentsReady {am : WMap} {amt : Amt} {p : String}
    (ham : (wkeys am).Nodup) (h : p ∈ parentsReady am amt) :
    dget amt p 0 ≠ 0 ∧ amGet am p ≠ [] := by
  rcases List.mem_map.mp h with ⟨e, he, hfst⟩
  have hcond := (List.mem_filter.mp he).2
  have hmem := (List.mem_filter.mp he).1
  have hcond2 : dget amt e.1 0 ≠ 0 ∧ e.2 ≠ [] := by
    simpa [List.isEmpty_iff] using hcond
  have hget : amGet am p = e.2 := by
    have : (p, e.2) ∈ am := by
      rw [← hfst]; exact hmem
    exact amGet_eq_of_mem_nodup this ham
  refine ⟨by rw [hfst] at hcond2; exact hcond2.1, ?_⟩
  rw [hget]
  exact hcond2.2

/-- A capable parent with a nonzero amount is ready. -/
theorem parentsReady_of_capable {am : WMap} {amt : Amt} {p : String}
    (hcap : capable am p) (hnz : dget amt p 0 ≠ 0) : p ∈ parentsReady am amt := by
  have hne := hcap.1
  have hmem : (p, amGet am p) ∈ am := mem_of_amGet_ne_nil hne
  refine List.mem_map.mpr ⟨(p, amGet am p), List.mem_filter.mpr ⟨hmem, ?_⟩, rfl⟩
  simp [List.isEmpty_iff, hnz, hne]

/-- If no capable account holds a nonzero amount, a pass only re-appends the
skip notes of its (stuck) ready parents and changes nothing else. -/
theorem runReady_no_progress (am : WMap) (ps : List String) (st : EngState)
    (hready : ∀ p ∈ ps, dget st.amt p 0 ≠ 0 ∧ amGet am p ≠ [])
    (hcap : ∀ p, capable am p → dget st.amt p 0 = 0) :
    runReady am ps st false = (⟨st.amt, st.notes ++ ps.map noteSkip⟩, false) := by
  induction ps generalizing st with
  | nil => simp
  | cons p ps ih =>
    have hp := hready p (List.mem_cons_self p ps)
    have hstuck : ((amGet am p).map Prod.snd).sum ≤ 0 := by
      by_contra hpos
      push_neg at hpos
      exact hp.1 (hcap p ⟨hp.2, hpos⟩)
    rw [runReady_cons_note ps false hp.1 (Or.inl hstuck)]
    rw [ih ⟨st.amt, st.notes ++ [noteSkip p]⟩ (fun q hq => hready q (List.mem_cons_of_mem p hq)) hcap]
    simp

@[simp] theorem engineLoop_zero (am : WMap) (it : ℕ) (st : EngState) :
    engineLoop am 0 it st = (st, it) := rfl

theorem engineLoop_succ_empty {am : WMap} {st : EngState} (fuel it : ℕ)
    (h : parentsReady am st.amt = []) :
    engineLoop am (fuel + 1) it st = (st, it + 1) := by
  simp [engineLoop, h]

theorem engineLoop_succ_ne {am : WMap} {st : EngState} (fuel it : ℕ)
    (h : parentsReady am st.amt ≠ []) :
    engineLoop am (fuel + 1) it st
      = match runReady am (parentsReady am st.amt) st false with
        | (st2, true) => engineLoop am fuel (it + 1) st2
        | (st2, false) => (st2, it + 1) := by
  simp [engineLoop, h]

theorem engineLoop_dsum (am : WMap) (hns : ∀ p, p ∉ (amGet am p).map Prod.fst)
    (fuel : ℕ) : ∀ (it : ℕ) (st : EngState),
    dsum (engineLoop am fuel it st).1.amt = dsum st.amt := by
  induction fuel with
  | zero => intro it st; rfl
  | succ fuel ih =>
    intro it st
    by_cases h : parentsReady am st.amt = []
    · rw [engineLoop_succ_empty fuel it h]
    · rw [engineLoop_succ_ne fuel it h]
      rcases hrun : runReady am (parentsReady am st.amt) st false with ⟨st2, b⟩
      have hsum : dsum st2.amt = dsum st.amt := by
        have := runReady_dsum am hns (parentsReady am st.amt) st false
        rwa [hrun] at this
      cases b
      · simpa using hsum
      · simp only []
        rw [ih (it + 1) st2, hsum]

theorem engineLoop_keys_mem (am : WMap) (fuel : ℕ) : ∀ (it : ℕ) (st : EngState)
    {x : String}, x ∈ dkeys st.amt → x ∈ dkeys (engineLoop am fuel it st).1.amt := by
  induction fuel with
  | zero => intro it st x h; exact h
  | succ fuel ih =>
    intro it st x h
    by_cases hr : parentsReady am st.amt = []
    · rw [engineLoop_succ_empty fuel it hr]; exact h
    · rw [engineLoop_succ_ne fuel it hr]
      rcases hrun : runReady am (parentsReady am st.amt) st false with ⟨st2, b⟩
      have hmem : x ∈ dkeys st2.amt := by
        have := runReady_keys_mem am (parentsReady am st.amt) st false h
        rwa [hrun] at this
      cases b
      · simpa using hmem
      · simp only []
        exact ih (it + 1) st2 hmem

theorem engineLoop_keys_nodup (am : WMap) (fuel : ℕ) : ∀ (it : ℕ) (st : EngState),
    (dkeys st.amt).Nodup → (dkeys (engineLoop am fuel it st).1.amt).Nodup := by
  induction fuel with
  | zero => intro it st h; exact h
  | succ fuel ih =>
    intro it st h
    by_cases hr : parentsReady am st.amt = []
    · rw [engineLoop_succ_empty fuel it hr]; exact h
    · rw [engineLoop_succ_ne fuel it hr]
      rcases hrun : runReady am (parentsReady am st.amt) st false with ⟨st2, b⟩
      have hnd : (dkeys st2.amt).Nodup := by
        have := runReady_keys_nodup am (parentsReady am st.amt) st false h
        rwa [hrun] at this
      cases b
      · simpa using hnd
      · simp only []
        exact ih (it + 1) st2 hnd

theorem engineLoop_notes (am : WMap) (fuel : ℕ) : ∀ (it : ℕ) (st : EngState),
    ∃ l, (engineLoop am fuel it st).1.notes = st.notes ++ l
      ∧ ∀ n ∈ l, ∃ q, n = noteSkip q := by
  induction fuel with
  | zero => intro it st; exact ⟨[], by simp⟩
  | succ fuel ih =>
    intro it st
    by_cases hr : parentsReady am st.amt = []
    · rw [engineLoop_succ_empty fuel it hr]; exact ⟨[], by simp⟩
    · rw [engineLoop_succ_ne fuel it hr]
      rcases hrun : runReady am (parentsReady am st.amt) st false with ⟨st2, b⟩
      have hnotes : ∃ l, st2.notes = st.notes ++ l ∧ ∀ n ∈ l, ∃ q, n = noteSkip q := by
        have := runReady_notes am (parentsReady am st.amt) st false
        rwa [hrun] at this
      rcases hnotes with ⟨l1, hl1, hall1⟩
      cases b
      · exact ⟨l1, by simpa using hl1, hall1⟩
      · simp only []
        rcases ih (it + 1) st2 with ⟨l2, hl2, hall2⟩
        refine ⟨l1 ++ l2, ?_, ?_⟩
        · rw [hl2, hl1, List.append_assoc]
        · intro n hn
          rcases List.mem_append.mp hn with h | h
          · exact hall1 n h
          · exact hall2 n h

/-! ## Lemmas about the result sort -/

theorem insRow_perm (x : ResultRow) (l : List ResultRow) : (insRow x l).Perm (x :: l) := by
  induction l with
  | nil => exact List.Perm.refl _
  | cons y ys ih =>
    by_cases h : rowLe y x
    · rw [insRow, if_pos h]
      exact (ih.cons y).trans (List.Perm.swap x y ys)
    · rw [insRow, if_neg h]

theorem sortRows_perm (l : List ResultRow) : (sortRows l).Perm l := by
  induction l with
  | nil => exact List.Perm.refl _
  | cons x xs ih =>
    exact (insRow_perm x (sortRows xs)).trans (ih.cons x)

theorem rowLe_iff (a b : ResultRow) : rowLe a b = true ↔ RowLeP a b := by
  simp [rowLe, RowLeP]

theorem rowLe_total (a b : ResultRow) : rowLe a b = true ∨ rowLe b a = true := by
  rw [rowLe_iff, rowLe_iff]
  rcases lt_trichotomy a.parent_id b.parent_id with h | h | h
  · exact Or.inl (Or.inl h)
  · rcases le_total a.account_id b.account_id with h2 | h2
    · exact Or.inl (Or.inr ⟨h, h2⟩)
    · exact Or.inr (Or.inr ⟨h.symm, h2⟩)
  · exact Or.inr (Or.inl h)

theorem rowLe_trans {a b c : ResultRow} (h1 : rowLe a b = true) (h2 : rowLe b c = true) :
    rowLe a c = true := by
  rw [rowLe_iff] at h1 h2 ⊢
  rcases h1 with h1 | ⟨h1, h1'⟩
  · rcases h2 with h2 | ⟨h2, h2'⟩
    · exact Or.inl (h1.trans h2)
    · exact Or.inl (h2 ▸ h1)
  · rcases h2 with h2 | ⟨h2, h2'⟩
    · exact Or.inl (h1 ▸ h2)
    · exact Or.inr ⟨h1.trans h2, h1'.trans h2'⟩

theorem mem_insRow {z x : ResultRow} {l : List ResultRow} :
    z ∈ insRow x l ↔ z = x ∨ z ∈ l :=
  ⟨fun h => by simpa using (insRow_perm x l).mem_iff.mp h,
   fun h => (insRow_perm x l).mem_iff.mpr (by simpa using h)⟩

theorem pairwise_insRow {x : ResultRow} {l : List ResultRow}
    (h : l.Pairwise (fun a b => rowLe a b = true)) :
    (insRow x l).Pairwise (fun a b => rowLe a b = true) := by
  induction l with
  | nil => simp [insRow]
  | cons y ys ih =>
    rcases List.pairwise_cons.mp h with ⟨hy, hys⟩
    by_cases hle : rowLe y x
    · rw [insRow, if_pos hle]
      refine List.pairwise_cons.mpr ⟨?_, ih hys⟩
      intro z hz
      rcases mem_insRow.mp hz with hz | hz
      · exact hz ▸ hle
      · exact hy z hz
    · rw [insRow, if_neg hle]
      refine List.pairwise_cons.mpr ⟨?_, h⟩
      intro z hz
      rcases List.mem_cons.mp hz with hz | hz
      · subst hz
        rcases rowLe_total x z with hh | hh
        · exact hh
        · exact absurd hh hle
      · have hxy : rowLe x y = true := by
          rcases rowLe_total x y with hh | hh
          · exact hh
          · exact absurd hh hle
        exact rowLe_trans hxy (hy z hz)

theorem sortRows_sorted (l : List ResultRow) :
    (sortRows l).Pairwise (fun a b => rowLe a b = true) := by
  induction l with
  | nil => simp [sortRows]
  | cons x xs ih => exact pairwise_insRow ih

/-! ## Unfolding the `allocate_costs` pipeline -/

theorem allocCore_eq (coa : List CoaRow) {costs : List CostRow} {alloc : List AllocRow}
    (maxIters : ℕ) {pcs : List (String × ℚ)} {pal : List (String × String × ℚ)}
    (hp : parseCosts costs = .ok pcs) (ha : parseAlloc alloc = .ok pal) :
    allocCore coa costs alloc maxIters
      = .ok ((engineLoop (mkAllocMap (mkAccounts coa) (normalize_weights pal)) maxIters 0
              ⟨touchAccounts (mkAccounts coa) (buildAmt pcs), []⟩).1,
             (engineLoop (mkAllocMap (mkAccounts coa) (normalize_weights pal)) maxIters 0
              ⟨touchAccounts (mkAccounts coa) (buildAmt pcs), []⟩).2,
             mkAllocMap (mkAccounts coa) (normalize_weights pal), mkAccounts coa) := by
  simp [allocCore, hp, ha]

theorem allocCore_error_costs (coa : List CoaRow) {costs : List CostRow}
    (alloc : List AllocRow) (maxIters : ℕ) {e : String}
    (hp : parseCosts costs = .error e) :
    allocCore coa costs alloc maxIters = .error e := by
  simp [allocCore, hp]

theorem allocCore_error_alloc (coa : List CoaRow) {costs : List CostRow}
    {alloc : List AllocRow} (maxIters : ℕ) {pcs : List (String × ℚ)} {e : String}
    (hp : parseCosts costs = .ok pcs) (ha : parseAlloc alloc = .error e) :
    allocCore coa costs alloc maxIters = .error e := by
  simp [allocCore, hp, ha]

theorem allocate_costs_of_core {coa : List CoaRow} {costs : List CostRow}
    {alloc : List AllocRow} {maxIters : ℕ} {st : EngState} {it : ℕ} {am : WMap}
    {accs : List Account}
    (h : allocCore coa costs alloc maxIters = .ok (st, it, am, accs)) :
    allocate_costs coa costs alloc maxIters
      = .ok (sortRows (st.amt.map (mkRow accs)),
             if maxIters ≤ it then st.notes ++ [capNote] else st.notes) := by
  simp [allocate_costs, h]

theorem allocate_costs_error {coa : List CoaRow} {costs : List CostRow}
    {alloc : List AllocRow} {maxIters : ℕ} {e : String}
    (h : allocCore coa costs alloc maxIters = .error e) :
    allocate_costs coa costs alloc maxIters = .error e := by
  simp [allocate_costs, h]

/-- The loop makes one empty pass and stops when nothing is ready. -/
theorem engineLoop_pos_empty {am : WMap} {st : EngState} {fuel : ℕ} (it : ℕ)
    (hf : 0 < fuel) (h : parentsReady am st.amt = []) :
    engineLoop am fuel it st = (st, it + 1) := by
  cases fuel with
  | zero => cases hf
  | succ fuel => exact engineLoop_succ_empty fuel it h

@[simp] theorem parentsReady_nil (amt : Amt) : parentsReady [] amt = [] := rfl

theorem parentsReady_cons (e : String × List (String × ℚ)) (am : WMap) (amt : Amt) :
    parentsReady (e :: am) amt
      = if dget amt e.1 0 ≠ 0 ∧ e.2 ≠ [] then e.1 :: parentsReady am amt
        else parentsReady am amt := by
  by_cases h1 : dget amt e.1 0 = 0
  · simp [parentsReady, List.filter_cons, h1]
  · by_cases h2 : e.2 = []
    · simp [parentsReady, List.filter_cons, h1, h2]
    · simp [parentsReady, List.filter_cons, h1, h2, List.isEmpty_iff]

/-! ## Keys of the initial ledger and the assembled records -/

theorem dkeys_append (d e : Amt) : dkeys (d ++ e) = dkeys d ++ dkeys e := by
  simp [dkeys]

theorem mem_dkeys_buildAmt {pcs : List (String × ℚ)} {x : String}
    (h : x ∈ pcs.map Prod.fst) : x ∈ dkeys (buildAmt pcs) := by
  have hgen : ∀ (d : Amt) (l : List (String × ℚ)), (x ∈ dkeys d ∨ x ∈ l.map Prod.fst) →
      x ∈ dkeys (l.foldl (fun d pc => dadd d pc.1 pc.2) d) := by
    intro d l
    induction l generalizing d with
    | nil => intro h; simpa using h.resolve_right (by simp)
    | cons pc l ih =>
      intro h
      rw [List.foldl_cons]
      refine ih _ ?_
      rcases h with h | h
      · exact Or.inl ((mem_dkeys_dadd d pc.1 pc.2 x).mpr (Or.inl h))
      · rw [List.map_cons, List.mem_cons] at h
        rcases h with h | h
        · exact Or.inl ((mem_dkeys_dadd d pc.1 pc.2 x).mpr (Or.inr h))
        · exact Or.inr h
  exact hgen [] pcs (Or.inr h)

theorem nodup_dkeys_buildAmt (pcs : List (String × ℚ)) :
    (dkeys (buildAmt pcs)).Nodup := by
  have hgen : ∀ (d : Amt) (l : List (String × ℚ)), (dkeys d).Nodup →
      (dkeys (l.foldl (fun d pc => dadd d pc.1 pc.2) d)).Nodup := by
    intro d l
    induction l generalizing d with
    | nil => intro h; simpa using h
    | cons pc l ih =>
      intro h
      rw [List.foldl_cons]
      exact ih _ (nodup_dkeys_dadd d pc.1 pc.2 h)
  exact hgen [] pcs (by simp)

theorem mem_dkeys_touchAccounts (accs : List Account) (d : Amt) {x : String}
    (h : x ∈ dkeys d) : x ∈ dkeys (touchAccounts accs d) := by
  induction accs generalizing d with
  | nil => simpa using h
  | cons a accs ih =>
    rw [touchAccounts_cons]
    by_cases hm : dmem d a.account_id
    · rw [if_pos hm]; exact ih d h
    · rw [if_neg hm]
      refine ih _ ?_
      rw [dkeys_append]
      exact List.mem_append_left _ h

theorem dmem_iff_mem_dkeys (d : Amt) (k : String) : dmem d k = true ↔ k ∈ dkeys d := by
  induction d with
  | nil => simp [dmem]
  | cons e d ih =>
    show (e.1 == k || dmem d k) = true ↔ _
    simp only [Bool.or_eq_true, beq_iff_eq, ih, dkeys_cons, List.mem_cons]
    constructor
    · rintro (h | h)
      · exact Or.inl h.symm
      · exact Or.inr h
    · rintro (h | h)
      · exact Or.inl h.symm
      · exact Or.inr h

theorem account_mem_dkeys_touchAccounts (accs : List Account) (d : Amt) {a : Account}
    (ha : a ∈ accs) : a.account_id ∈ dkeys (touchAccounts accs d) := by
  induction accs generalizing d with
  | nil => cases ha
  | cons b accs ih =>
    rw [touchAccounts_cons]
    rcases List.mem_cons.mp ha with h | h
    · subst h
      by_cases hm : dmem d a.account_id
      · rw [if_pos hm]
        exact mem_dkeys_touchAccounts accs d ((dmem_iff_mem_dkeys d _).mp hm)
      · rw [if_neg hm]
        refine mem_dkeys_touchAccounts accs _ ?_
        rw [dkeys_append]
        exact List.mem_append_right _ (by simp [dkeys])
    · by_cases hm : dmem d b.account_id
      · rw [if_pos hm]; exact ih _ h
      · rw [if_neg hm]; exact ih _ h

theorem nodup_dkeys_touchAccounts (accs : List Account) (d : Amt)
    (h : (dkeys d).Nodup) : (dkeys (touchAccounts accs d)).Nodup := by
  induction accs generalizing d with
  | nil => simpa using h
  | cons a accs ih =>
    rw [touchAccounts_cons]
    by_cases hm : dmem d a.account_id
    · rw [if_pos hm]; exact ih d h
    · rw [if_neg hm]
      refine ih _ ?_
      have hna : a.account_id ∉ dkeys d := fun hh =>
        hm ((dmem_iff_mem_dkeys d _).mpr hh)
      rw [dkeys_append]
      refine List.nodup_append.mpr ⟨h, by simp [dkeys], ?_⟩
      intro x hx hx2
      have hxa : x = a.account_id := by simpa [dkeys] using hx2
      exact hna (hxa ▸ hx)

theorem parseCosts_fst {costs : List CostRow} {pcs : List (String × ℚ)}
    (h : parseCosts costs = .ok pcs) :
    pcs.map Prod.fst = costs.map (fun r => pyStrip r.account_id) := by
  induction costs generalizing pcs with
  | nil =>
    simp [parseCosts] at h
    subst h; rfl
  | cons r rs ih =>
    rw [parseCosts] at h
    cases hf : to_float r.amount with
    | error e => rw [hf] at h; cases h
    | ok a =>
      rw [hf] at h
      cases hrest : parseCosts rs with
      | error e => rw [hrest] at h; cases h
      | ok rest =>
        rw [hrest] at h
        simp at h
        subst h
        simp [ih hrest]

theorem byId_id (accs : List Account) (i : String) : (byId accs i).account_id = i := by
  unfold byId
  cases hf : accs.reverse.find? (fun a => a.account_id == i) with
  | none => rfl
  | some a =>
    have := List.find?_some hf
    simpa using this

theorem byId_not_mem {accs : List Account} {i : String}
    (h : i ∉ accs.map Account.account_id) : byId accs i = ⟨i, "", ""⟩ := by
  unfold byId
  cases hf : accs.reverse.find? (fun a => a.account_id == i) with
  | none => rfl
  | some a =>
    exfalso
    have hmem : a ∈ accs.reverse := List.mem_of_find?_eq_some hf
    have hai : a.account_id = i := by simpa using List.find?_some hf
    exact h (hai ▸ List.mem_map_of_mem Account.account_id (List.mem_reverse.mp hmem))

theorem mkRow_account_id (accs : List Account) (kv : String × ℚ) :
    (mkRow accs kv).account_id = kv.1 := byId_id accs kv.1

theorem mkRow_parent_id (accs : List Account) (kv : String × ℚ) :
    (mkRow accs kv).parent_id = (byId accs kv.1).parent_id := rfl

theorem mkRow_name (accs : List Account) (kv : String × ℚ) :
    (mkRow accs kv).name = (byId accs kv.1).name := rfl

theorem mkRow_amount (accs : List Account) (kv : String × ℚ) :
    (mkRow accs kv).amount = kv.2 := rfl


/-- The settled result records carry exactly the ledger total. -/
theorem sum_result_eq (accs : List Account) (d : Amt) :
    ((sortRows (d.map (mkRow accs))).map ResultRow.amount).sum = dsum d := by
  have hperm : ((sortRows (d.map (mkRow accs))).map ResultRow.amount).Perm
      ((d.map (mkRow accs)).map ResultRow.amount) :=
    (sortRows_perm (d.map (mkRow accs))).map ResultRow.amount
  rw [hperm.sum_eq, List.map_map]
  rfl

/-! ## Level functions: the pass-count bound for stratified allocation maps -/

/-- Along one `runReady` pass, accounts at or below the level threshold are
either untouched or zeroed, and the ready capable ones among them end at
zero (a distribution only ever adds to strictly higher levels). -/
theorem runReady_levels (am : WMap) (lvl : String → ℕ)
    (HS : ∀ p c, c ∈ (amGet am p).map Prod.fst → lvl p < lvl c) (θ : ℕ) :
    ∀ (ready : List String) (st : EngState) (prog : Bool),
    (∀ q ∈ ready, capable am q → θ ≤ lvl q) →
    (∀ x, lvl x ≤ θ →
      (dget (runReady am ready st prog).1.amt x 0 = dget st.amt x 0
        ∨ dget (runReady am ready st prog).1.amt x 0 = 0))
    ∧ (∀ x, lvl x ≤ θ → capable am x → x ∈ ready →
        dget (runReady am ready st prog).1.amt x 0 = 0) := by
  intro ready
  induction ready with
  | nil =>
    intro st prog _
    exact ⟨fun x _ => Or.inl rfl, fun x _ _ hx => absurd hx (List.not_mem_nil x)⟩
  | cons p ps ih =>
    intro st prog Hθ
    have Hθ2 : ∀ q ∈ ps, capable am q → θ ≤ lvl q :=
      fun q hq => Hθ q (List.mem_cons_of_mem p hq)
    by_cases h0 : dget st.amt p 0 = 0
    · rw [runReady_cons_zero ps prog h0]
      have ihh := ih st prog Hθ2
      refine ⟨ihh.1, ?_⟩
      intro x hx hcap hmem
      rcases List.mem_cons.mp hmem with hxp | hxp
      · subst hxp
        rcases ihh.1 x hx with h | h
        · rw [h]; exact h0
        · exact h
      · exact ihh.2 x hx hcap hxp
    · by_cases hc : ((amGet am p).map Prod.snd).sum ≤ 0 ∨ amGet am p = []
      · rw [runReady_cons_note ps prog h0 hc]
        have ihh := ih ⟨st.amt, st.notes ++ [noteSkip p]⟩ prog Hθ2
        refine ⟨ihh.1, ?_⟩
        intro x hx hcap hmem
        rcases List.mem_cons.mp hmem with hxp | hxp
        · subst hxp
          exfalso
          rcases hc with hc | hc
          · exact absurd hcap.2 (not_lt.mpr hc)
          · exact hcap.1 hc
        · exact ihh.2 x hx hcap hxp
      · rw [runReady_cons_dist ps prog h0 hc]
        push_neg at hc
        have hcap_p : capable am p := ⟨hc.2, hc.1⟩
        have hθp : θ ≤ lvl p := Hθ p (List.mem_cons_self p ps) hcap_p
        have hget1 : ∀ x, lvl x ≤ θ →
            dget (dset (distribute st.amt (dget st.amt p 0)
              ((amGet am p).map Prod.snd).sum (amGet am p)) p 0) x 0
            = (if x = p then 0 else dget st.amt x 0) := by
          intro x hx
          by_cases hxp : x = p
          · rw [if_pos hxp, hxp, dget_dset_self]
          · rw [if_neg hxp, dget_dset_ne _ _ _ hxp, dget_distribute_ne]
            intro hmem
            have := HS p x hmem
            omega
        have ihh := ih ⟨dset (distribute st.amt (dget st.amt p 0)
          ((amGet am p).map Prod.snd).sum (amGet am p)) p 0, st.notes⟩ true Hθ2
        constructor
        · intro x hx
          rcases ihh.1 x hx with h | h
          · rw [h, hget1 x hx]
            by_cases hxp : x = p
            · rw [if_pos hxp]; exact Or.inr rfl
            · rw [if_neg hxp]; exact Or.inl rfl
          · exact Or.inr h
        · intro x hx hcap hmem
          rcases List.mem_cons.mp hmem with hxp | hxp
          · subst hxp
            rcases ihh.1 x hx with h | h
            · rw [h, hget1 x hx, if_pos rfl]
            · exact h
          · exact ihh.2 x hx hcap hxp

/-- When the allocation map is stratified by a level function bounded by `N`
on capable parents, the loop counter returned by `engineLoop` never exceeds
`N + 1`: after pass `it` every capable parent of level below `it` is zeroed,
so a progressing pass needs a capable parent of level at least `it`. -/
theorem engineLoop_level_bound (am : WMap) (lvl : String → ℕ)
    (HS : ∀ p c, c ∈ (amGet am p).map Prod.fst → lvl p < lvl c)
    (ham : (wkeys am).Nodup) (N : ℕ)
    (HB : ∀ p, capable am p → lvl p < N) :
    ∀ (fuel it : ℕ) (st : EngState),
    (∀ p, capable am p → lvl p < it → dget st.amt p 0 = 0) → it ≤ N →
    (engineLoop am fuel it st).2 ≤ N + 1 := by
  intro fuel
  induction fuel with
  | zero =>
    intro it st _ hN
    simpa using le_trans hN (Nat.le_succ N)
  | succ fuel ih =>
    intro it st I hN
    by_cases hr : parentsReady am st.amt = []
    · rw [engineLoop_succ_empty fuel it hr]
      simpa using Nat.succ_le_succ hN
    · rw [engineLoop_succ_ne fuel it hr]
      rcases hrun : runReady am (parentsReady am st.amt) st false with ⟨st2, b⟩
      cases b
      · simpa using Nat.succ_le_succ hN
      · have hprog : ¬ (∀ p, capable am p → dget st.amt p 0 = 0) := by
          intro hall
          have hnp := runReady_no_progress am (parentsReady am st.amt) st
            (fun p hp => mem_parentsReady ham hp) hall
          rw [hnp] at hrun
          exact Bool.noConfusion (congrArg Prod.snd hrun)
        push_neg at hprog
        rcases hprog with ⟨p, hcap, hnz⟩
        have hlt : it ≤ lvl p := by
          by_contra hh
          push_neg at hh
          exact hnz (I p hcap hh)
        have hitN : it < N := lt_of_le_of_lt hlt (HB p hcap)
        have Hθ : ∀ q ∈ parentsReady am st.amt, capable am q → it ≤ lvl q := by
          intro q hq hcapq
          by_contra hh
          push_neg at hh
          exact (mem_parentsReady ham hq).1 (I q hcapq hh)
        have hspec := runReady_levels am lvl HS it (parentsReady am st.amt) st false Hθ
        have I2 : ∀ q, capable am q → lvl q < it + 1 → dget st2.amt q 0 = 0 := by
          intro q hcapq hlvlq
          have hlq : lvl q ≤ it := Nat.lt_succ_iff.mp hlvlq
          by_cases hqr : q ∈ parentsReady am st.amt
          · have h := hspec.2 q hlq hcapq hqr
            rw [hrun] at h
            exact h
          · have hq0 : dget st.amt q 0 = 0 := by
              by_contra hq
              exact hqr (parentsReady_of_capable hcapq hq)
            rcases hspec.1 q hlq with h | h
            · rw [hrun] at h
              rw [h]
              exact hq0
            · rw [hrun] at h
              exact h
        exact ih (it + 1) st2 I2 hitN

/-- Every key retained in the filtered allocation map names a declared child
of its parent. -/
theorem mkAllocMap_key_declared {accs : List Account} {nw : WMap} {p c : String}
    (h : c ∈ (amGet (mkAllocMap accs nw) p).map Prod.fst) :
    ∃ a ∈ accs, a.account_id = c ∧ a.parent_id = p := by
  rw [amGet_mkAllocMap] at h
  rcases List.mem_map.mp h with ⟨cw, hcw, hfst⟩
  have hcond := (List.mem_filter.mp hcw).2
  have hchild : cw.1 ∈ childrenOf accs p := by
    simpa using hcond
  rcases List.mem_map.mp hchild with ⟨a, ha, hid⟩
  have hmem := (List.mem_filter.mp ha).1
  have hpar : a.parent_id = p := by
    have := (List.mem_filter.mp ha).2
    simpa using this
  exact ⟨a, hmem, by rw [hid, hfst], hpar⟩

theorem le_foldr_max_nat {x : ℕ} : ∀ {l : List ℕ}, x ∈ l → x ≤ l.foldr max 0 := by
  intro l
  induction l with
  | nil => intro h; exact absurd h (List.not_mem_nil x)
  | cons y l ih =>
    intro h
    rcases List.mem_cons.mp h with h | h
    · subst h; exact le_max_left _ _
    · exact le_trans (ih h) (le_max_right _ _)

theorem lvl_le_maxLvl {coa : List CoaRow} {a : Account} (lvl : String → ℕ)
    (h : a ∈ mkAccounts coa) : lvl a.account_id ≤ maxLvl coa lvl :=
  le_foldr_max_nat (List.mem_map.mpr ⟨a, h, rfl⟩)

/-- The iteration-cap warning is distinct from every per-account skip note
(they start with different letters). -/
theorem capNote_ne_noteSkip (q : String) : capNote ≠ noteSkip q := by
  intro h
  have hd := congrArg String.data h
  simp only [capNote, noteSkip, String.data_append] at hd
  have : 'O' = 'K' := by
    have := congrArg (fun l => l.headD ' ') hd
    simp at this
  exact absurd this (by decide)

/-- An edge of the chart raises any level function that is strictly
increasing along its rows. -/
theorem edge_lvl {rows : List CoaRow} {lvl : String → ℕ}
    (h : ∀ r ∈ rows, lvl (pyStrip r.parent_id) < lvl (pyStrip r.account_id))
    {x y : String} (he : edge rows x y) : lvl x < lvl y := by
  rcases List.mem_map.mp he with ⟨r, hr, hid⟩
  have hpar : pyStrip r.parent_id = x := by
    have := (List.mem_filter.mp hr).2
    simpa using this
  have := h r (List.mem_filter.mp hr).1
  rw [hpar, hid] at this
  exact this

/-- A level function strictly increasing along the rows certifies that the
parent links are acyclic. -/
theorem no_cycle_of_lvl {rows : List CoaRow} (lvl : String → ℕ)
    (h : ∀ r ∈ rows, lvl (pyStrip r.parent_id) < lvl (pyStrip r.account_id)) :
    ∀ x, ¬ Relation.TransGen (edge rows) x x := by
  have hmono : ∀ x y, Relation.TransGen (edge rows) x y → lvl x < lvl y := by
    intro x y htg
    induction htg with
    | single he => exact edge_lvl h he
    | tail _ he ih => exact lt_trans ih (edge_lvl h he)
  intro x hx
  exact lt_irrefl (lvl x) (hmono x x hx)

/-! ## The validator DFS: correctness of cycle detection -/

theorem dfs_false_spec (ch : String → List String) : ∀ fuel : ℕ,
    (∀ n st st2, dfs ch fuel n st = (false, st2) →
      st2.visiting = st.visiting ∧ st.visited ⊆ st2.visited ∧ n ∈ st2.visited
      ∧ (ClosedSt ch st → ClosedSt ch st2) ∧ (DisjSt st → DisjSt st2))
    ∧ (∀ cs st st2, dfsGo ch fuel cs st = (false, st2) →
      st2.visiting = st.visiting ∧ st.visited ⊆ st2.visited ∧ (∀ c ∈ cs, c ∈ st2.visited)
      ∧ (ClosedSt ch st → ClosedSt ch st2) ∧ (DisjSt st → DisjSt st2)) := by
  intro fuel
  induction fuel with
  | zero =>
    constructor
    · intro n st st2 h
      exact absurd (congrArg Prod.fst h) (by simp [dfs])
    · intro cs st st2 h
      cases cs with
      | nil =>
        simp only [dfsGo, Prod.mk.injEq] at h
        rw [← h.2]
        exact ⟨rfl, fun x hx => hx, fun c hc => absurd hc (List.not_mem_nil c),
          fun hc => hc, fun hd => hd⟩
      | cons c cs =>
        exact absurd (congrArg Prod.fst h) (by simp [dfsGo, dfs])
  | succ fuel ih =>
    have hA : ∀ n st st2, dfs ch (fuel + 1) n st = (false, st2) →
        st2.visiting = st.visiting ∧ st.visited ⊆ st2.visited ∧ n ∈ st2.visited
        ∧ (ClosedSt ch st → ClosedSt ch st2) ∧ (DisjSt st → DisjSt st2) := by
      intro n st st2 h
      rw [dfs] at h
      by_cases hvg : n ∈ st.visiting
      · rw [if_pos hvg] at h
        exact absurd (congrArg Prod.fst h) (by simp)
      · rw [if_neg hvg] at h
        by_cases hvb : n ∈ st.visited
        · rw [if_pos hvb] at h
          simp only [Prod.mk.injEq] at h
          rw [← h.2]
          exact ⟨rfl, fun x hx => hx, hvb, fun hc => hc, fun hd => hd⟩
        · rw [if_neg hvb] at h
          rcases hgo : dfsGo ch fuel (ch n) ⟨n :: st.visiting, st.visited⟩ with ⟨b, stg⟩
          cases b
          · rw [hgo] at h
            simp only [Prod.mk.injEq] at h
            obtain ⟨g1, g2, g3, g4, g5⟩ := (ih.2) (ch n) _ _ hgo
            rw [← h.2]
            refine ⟨?_, ?_, ?_, ?_, ?_⟩
            · show stg.visiting.erase n = st.visiting
              rw [g1]
              exact List.erase_cons_head n st.visiting
            · exact fun x hx => List.mem_cons_of_mem n (g2 hx)
            · exact List.mem_cons_self n _
            · intro hc v hv c hcv
              rcases List.mem_cons.mp hv with hv | hv
              · subst hv
                exact List.mem_cons_of_mem _ (g3 c hcv)
              · exact List.mem_cons_of_mem _ (g4 hc v hv c hcv)
            · intro hd x hx
              have hx2 : x ∈ st.visiting := by
                have heq : stg.visiting.erase n = st.visiting := by
                  rw [g1]; exact List.erase_cons_head n st.visiting
                have hx3 : x ∈ stg.visiting.erase n := hx
                rwa [heq] at hx3
              have hdg : DisjSt (⟨n :: st.visiting, st.visited⟩ : DfsSt) := by
                intro y hy
                rcases List.mem_cons.mp hy with hy | hy
                · subst hy; exact hvb
                · exact hd y hy
              have := g5 hdg x (by rw [g1]; exact List.mem_cons_of_mem n hx2)
              intro hmem
              rcases List.mem_cons.mp hmem with hm | hm
              · subst hm; exact hvg hx2
              · exact this hm
          · rw [hgo] at h
            exact absurd (congrArg Prod.fst h) (by simp)
    refine ⟨hA, ?_⟩
    intro cs
    induction cs with
    | nil =>
      intro st st2 h
      simp only [dfsGo, Prod.mk.injEq] at h
      rw [← h.2]
      exact ⟨rfl, fun x hx => hx, fun c hc => absurd hc (List.not_mem_nil c),
        fun hc => hc, fun hd => hd⟩
    | cons c cs ihc =>
      intro st st2 h
      rw [dfsGo] at h
      rcases h1 : dfs ch (fuel + 1) c st with ⟨b, stm⟩
      cases b
      · rw [h1] at h
        obtain ⟨a1, a2, a3, a4, a5⟩ := hA c st stm h1
        obtain ⟨b1, b2, b3, b4, b5⟩ := ihc stm st2 h
        refine ⟨b1.trans a1, fun x hx => b2 (a2 hx), ?_, fun hc => b4 (a4 hc),
          fun hd => b5 (a5 hd)⟩
        intro d hd
        rcases List.mem_cons.mp hd with hd | hd
        · subst hd; exact b2 a3
        · exact b3 d hd
      · rw [h1] at h
        exact absurd (congrArg Prod.fst h) (by simp)

theorem reach_black {ch : String → List String} {st : DfsSt} (hc : ClosedSt ch st)
    {n v : String} (hn : n ∈ st.visited)
    (h : Relation.ReflTransGen (dfsRel ch) n v) : v ∈ st.visited := by
  induction h with
  | refl => exact hn
  | tail _ he ih => exact hc _ ih _ he

theorem dfs_true_reach (ch : String → List String) : ∀ fuel : ℕ,
    (∀ n st, ClosedSt ch st → DisjSt st →
      (∃ v ∈ st.visiting, Relation.ReflTransGen (dfsRel ch) n v) →
      (dfs ch fuel n st).1 = true)
    ∧ (∀ cs st, ClosedSt ch st → DisjSt st →
      (∃ c ∈ cs, ∃ v ∈ st.visiting, Relation.ReflTransGen (dfsRel ch) c v) →
      (dfsGo ch fuel cs st).1 = true) := by
  intro fuel
  induction fuel with
  | zero =>
    constructor
    · intro n st _ _ _
      simp [dfs]
    · intro cs st _ _ hex
      cases cs with
      | nil => exact absurd hex (by simp)
      | cons c cs => simp [dfsGo, dfs]
  | succ fuel ih =>
    have hA : ∀ n st, ClosedSt ch st → DisjSt st →
        (∃ v ∈ st.visiting, Relation.ReflTransGen (dfsRel ch) n v) →
        (dfs ch (fuel + 1) n st).1 = true := by
      intro n st hc hd hex
      rcases hex with ⟨v, hv, hreach⟩
      rw [dfs]
      by_cases hvg : n ∈ st.visiting
      · rw [if_pos hvg]
      · rw [if_neg hvg]
        by_cases hvb : n ∈ st.visited
        · exact absurd (reach_black hc hvb hreach) (hd v hv)
        · rw [if_neg hvb]
          rcases Relation.ReflTransGen.cases_head hreach with heq | ⟨m, hm, hmr⟩
          · exact absurd (heq ▸ hv) hvg
          · have hgo := ih.2 (ch n) ⟨n :: st.visiting, st.visited⟩ hc
              (by
                intro y hy
                rcases List.mem_cons.mp hy with hy | hy
                · subst hy; exact hvb
                · exact hd y hy)
              ⟨m, hm, v, List.mem_cons_of_mem n hv, hmr⟩
            rcases hg : dfsGo ch fuel (ch n) ⟨n :: st.visiting, st.visited⟩ with ⟨b, stg⟩
            rw [hg] at hgo
            cases b
            · exact absurd hgo (by simp)
            · rfl
    refine ⟨hA, ?_⟩
    intro cs
    induction cs with
    | nil =>
      intro st _ _ hex
      exact absurd hex (by simp)
    | cons c cs ihc =>
      intro st hc hd hex
      rw [dfsGo]
      rcases h1 : dfs ch (fuel + 1) c st with ⟨b, stm⟩
      cases b
      · rcases hex with ⟨d, hdm, v, hv, hreach⟩
        rcases List.mem_cons.mp hdm with hdc | hdc
        · subst hdc
          have := hA d st hc hd ⟨v, hv, hreach⟩
          rw [h1] at this
          exact absurd this (by simp)
        · obtain ⟨f1, f2, _, f4, f5⟩ := (dfs_false_spec ch (fuel + 1)).1 c st stm h1
          exact ihc stm (f4 hc) (f5 hd) ⟨d, hdc, v, by rw [f1]; exact hv, hreach⟩
      · rfl
theorem dfs_nocyc (ch : String → List String) : ∀ fuel : ℕ,
    (∀ n st st2, ClosedSt ch st → DisjSt st → NoCycSt ch st →
      dfs ch fuel n st = (false, st2) → NoCycSt ch st2)
    ∧ (∀ cs st st2, ClosedSt ch st → DisjSt st → NoCycSt ch st →
      dfsGo ch fuel cs st = (false, st2) → NoCycSt ch st2) := by
  intro fuel
  induction fuel with
  | zero =>
    constructor
    · intro n st st2 _ _ _ h
      exact absurd (congrArg Prod.fst h) (by simp [dfs])
    · intro cs st st2 _ _ hn h
      cases cs with
      | nil =>
        simp only [dfsGo, Prod.mk.injEq] at h
        rw [← h.2]
        exact hn
      | cons c cs =>
        exact absurd (congrArg Prod.fst h) (by simp [dfsGo, dfs])
  | succ fuel ih =>
    have hA : ∀ n st st2, ClosedSt ch st → DisjSt st → NoCycSt ch st →
        dfs ch (fuel + 1) n st = (false, st2) → NoCycSt ch st2 := by
      intro n st st2 hc hd hn h
      rw [dfs] at h
      by_cases hvg : n ∈ st.visiting
      · rw [if_pos hvg] at h
        exact absurd (congrArg Prod.fst h) (by simp)
      · rw [if_neg hvg] at h
        by_cases hvb : n ∈ st.visited
        · rw [if_pos hvb] at h
          simp only [Prod.mk.injEq] at h
          rw [← h.2]
          exact hn
        · rw [if_neg hvb] at h
          have hdp : DisjSt (⟨n :: st.visiting, st.visited⟩ : DfsSt) := by
            intro y hy
            rcases List.mem_cons.mp hy with hy | hy
            · subst hy; exact hvb
            · exact hd y hy
          rcases hgo : dfsGo ch fuel (ch n) ⟨n :: st.visiting, st.visited⟩ with ⟨b, stg⟩
          rw [hgo] at h
          cases b
          · simp only [Prod.mk.injEq] at h
            have hng := ih.2 (ch n) ⟨n :: st.visiting, st.visited⟩ stg hc hdp hn hgo
            rw [← h.2]
            intro v hv
            rcases List.mem_cons.mp hv with hv | hv
            · subst hv
              intro hcyc
              rcases Relation.TransGen.head'_iff.mp hcyc with ⟨m, hm, hmr⟩
              have := (dfs_true_reach ch fuel).2 (ch v) ⟨v :: st.visiting, st.visited⟩
                hc hdp ⟨m, hm, v, List.mem_cons_self v _, hmr⟩
              rw [hgo] at this
              exact absurd this (by simp)
            · exact hng v hv
          · exact absurd (congrArg Prod.fst h) (by simp)
    refine ⟨hA, ?_⟩
    intro cs
    induction cs with
    | nil =>
      intro st st2 _ _ hn h
      simp only [dfsGo, Prod.mk.injEq] at h
      rw [← h.2]
      exact hn
    | cons c cs ihc =>
      intro st st2 hc hd hn h
      rw [dfsGo] at h
      rcases h1 : dfs ch (fuel + 1) c st with ⟨b, stm⟩
      cases b
      · rw [h1] at h
        obtain ⟨_, _, _, f4, f5⟩ := (dfs_false_spec ch (fuel + 1)).1 c st stm h1
        exact ihc stm st2 (f4 hc) (f5 hd) (hA c st stm hc hd hn h1) h
      · rw [h1] at h
        exact absurd (congrArg Prod.fst h) (by simp)
theorem dfsSeeds_false_nocyc (ch : String → List String) (fuel : ℕ) :
    ∀ (rs : List String) (st : DfsSt), ClosedSt ch st → DisjSt st → NoCycSt ch st →
    dfsSeeds ch fuel rs st = false →
    ∀ r ∈ rs, ¬ Relation.TransGen (dfsRel ch) r r := by
  intro rs
  induction rs with
  | nil =>
    intro st _ _ _ _ r hr
    exact absurd hr (List.not_mem_nil r)
  | cons r rs ih =>
    intro st hc hd hn h q hq
    rw [dfsSeeds] at h
    rcases h1 : dfs ch fuel r st with ⟨b, st2⟩
    rw [h1] at h
    cases b
    · obtain ⟨_, _, f3, f4, f5⟩ := (dfs_false_spec ch fuel).1 r st st2 h1
      have hn2 : NoCycSt ch st2 := (dfs_nocyc ch fuel).1 r st st2 hc hd hn h1
      rcases List.mem_cons.mp hq with hqr | hqr
      · subst hqr
        exact hn2 q f3
      · exact ih st2 (f4 hc) (f5 hd) hn2 h q hqr
    · exact absurd h (by simp)
theorem freshCount_mono {U : List String} {st st2 : DfsSt}
    (h1 : st2.visiting = st.visiting) (h2 : st.visited ⊆ st2.visited) :
    freshCount U st2 ≤ freshCount U st := by
  unfold freshCount
  rw [← List.countP_eq_length_filter, ← List.countP_eq_length_filter]
  apply List.countP_mono_left
  intro x _ hx
  simp only [decide_eq_true_eq] at hx ⊢
  rw [h1] at hx
  exact ⟨hx.1, fun hm => hx.2 (h2 hm)⟩

theorem filter_and_ne {n : String} (q : String → Prop) [DecidablePred q] :
    ∀ U : List String, n ∉ U →
    U.filter (fun x => x ≠ n ∧ q x) = U.filter (fun x => q x) := by
  intro U
  induction U with
  | nil => intro _; rfl
  | cons y U ih =>
    intro hn
    have hyn : y ≠ n := fun h => hn (h ▸ List.mem_cons_self y U)
    have hnU : n ∉ U := fun h => hn (List.mem_cons_of_mem y h)
    by_cases hq : q y
    · rw [List.filter_cons_of_pos (by simp [hyn, hq]), List.filter_cons_of_pos (by simp [hq]),
        ih hnU]
    · rw [List.filter_cons_of_neg (by simp [hq]), List.filter_cons_of_neg (by simp [hq]),
        ih hnU]

theorem freshCount_push {n : String} {st : DfsSt} :
    ∀ U : List String, U.Nodup → n ∈ U → n ∉ st.visiting → n ∉ st.visited →
    freshCount U (⟨n :: st.visiting, st.visited⟩ : DfsSt) + 1 = freshCount U st := by
  intro U
  induction U with
  | nil => intro _ hn; exact absurd hn (List.not_mem_nil n)
  | cons y U ih =>
    intro hnd hmem hg hb
    have hyU : y ∉ U := (List.nodup_cons.mp hnd).1
    have hndU : U.Nodup := (List.nodup_cons.mp hnd).2
    unfold freshCount
    rcases List.mem_cons.mp hmem with hyn | hnU
    · subst hyn
      rw [List.filter_cons_of_neg (by simp), List.filter_cons_of_pos (by simp [hg, hb])]
      have heq : U.filter (fun x => (x ∉ n :: st.visiting ∧ x ∉ st.visited : Prop))
          = U.filter (fun x => (x ∉ st.visiting ∧ x ∉ st.visited : Prop)) := by
        have := filter_and_ne (fun x => x ∉ st.visiting ∧ x ∉ st.visited) U hyU
        rw [← this]
        apply List.filter_congr
        intro x _
        simp only [decide_eq_decide, List.mem_cons, not_or]
        constructor
        · rintro ⟨⟨hxn, hxv⟩, hxb⟩; exact ⟨hxn, hxv, hxb⟩
        · rintro ⟨hxn, hxv, hxb⟩; exact ⟨⟨hxn, hxv⟩, hxb⟩
      rw [heq]
      simp
    · by_cases hy2 : (y ∉ st.visiting ∧ y ∉ st.visited : Prop)
      · have hyn : y ≠ n := fun h => hyU (h ▸ hnU)
        rw [List.filter_cons_of_pos (by
            simp only [decide_eq_true_eq, List.mem_cons, not_or]
            exact ⟨⟨hyn, hy2.1⟩, hy2.2⟩),
          List.filter_cons_of_pos (by simp [hy2.1, hy2.2])]
        have := ih hndU hnU hg hb
        unfold freshCount at this
        have this2 : (U.filter (fun x => decide (x ∉ n :: st.visiting ∧ x ∉ st.visited))).length
            + 1 = (U.filter (fun x => decide (x ∉ st.visiting ∧ x ∉ st.visited))).length := this
        simp only [List.length_cons]
        omega
      · rw [List.filter_cons_of_neg (by
            simp only [decide_eq_true_eq, List.mem_cons, not_or]
            intro hcon
            exact hy2 ⟨hcon.1.2, hcon.2⟩),
          List.filter_cons_of_neg (by
            simp only [decide_eq_true_eq]
            exact hy2)]
        have := ih hndU hnU hg hb
        unfold freshCount at this
        exact this
theorem dfs_total (ch : String → List String) (U : List String)
    (hU : ∀ n, ∀ c ∈ ch n, c ∈ U) (hnd : U.Nodup)
    (hacyc : ∀ x, ¬ Relation.TransGen (dfsRel ch) x x) : ∀ fuel : ℕ,
    (∀ n st, (∀ x ∈ st.visiting, Relation.TransGen (dfsRel ch) x n) → n ∈ U →
      freshCount U st < fuel → (dfs ch fuel n st).1 = false)
    ∧ (∀ cs st, (∀ x ∈ st.visiting, ∀ c ∈ cs, Relation.TransGen (dfsRel ch) x c) →
      (∀ c ∈ cs, c ∈ U) → freshCount U st < fuel → (dfsGo ch fuel cs st).1 = false) := by
  intro fuel
  induction fuel with
  | zero =>
    exact ⟨fun n st _ _ hf => absurd hf (by omega),
      fun cs st _ _ hf => absurd hf (by omega)⟩
  | succ fuel ih =>
    have hA : ∀ n st, (∀ x ∈ st.visiting, Relation.TransGen (dfsRel ch) x n) → n ∈ U →
        freshCount U st < fuel + 1 → (dfs ch (fuel + 1) n st).1 = false := by
      intro n st hgray hnU hf
      rw [dfs]
      by_cases hvg : n ∈ st.visiting
      · exact absurd (hgray n hvg) (hacyc n)
      · rw [if_neg hvg]
        by_cases hvb : n ∈ st.visited
        · rw [if_pos hvb]
        · rw [if_neg hvb]
          have hpush := freshCount_push U hnd hnU hvg hvb
          have hf2 : freshCount U (⟨n :: st.visiting, st.visited⟩ : DfsSt) < fuel := by
            omega
          have hgo := ih.2 (ch n) ⟨n :: st.visiting, st.visited⟩
            (by
              intro x hx c hc
              rcases List.mem_cons.mp hx with hx | hx
              · subst hx
                exact Relation.TransGen.single hc
              · exact (hgray x hx).tail hc)
            (hU n) hf2
          rcases hg : dfsGo ch fuel (ch n) ⟨n :: st.visiting, st.visited⟩ with ⟨b, stg⟩
          rw [hg] at hgo
          cases b
          · rfl
          · exact absurd hgo (by simp)
    refine ⟨hA, ?_⟩
    intro cs
    induction cs with
    | nil =>
      intro st _ _ _
      rw [dfsGo]
    | cons c cs ihc =>
      intro st hgray hcsU hf
      rw [dfsGo]
      rcases h1 : dfs ch (fuel + 1) c st with ⟨b, stm⟩
      have hb := hA c st (fun x hx => hgray x hx c (List.mem_cons_self c cs))
        (hcsU c (List.mem_cons_self c cs)) hf
      rw [h1] at hb
      cases b
      · obtain ⟨f1, f2, _, _, _⟩ := (dfs_false_spec ch (fuel + 1)).1 c st stm h1
        exact ihc stm
          (by
            intro x hx d hd
            rw [f1] at hx
            exact hgray x hx d (List.mem_cons_of_mem c hd))
          (fun d hd => hcsU d (List.mem_cons_of_mem c hd))
          (lt_of_le_of_lt (freshCount_mono f1 f2) hf)
      · exact absurd hb (by simp)
theorem dfsSeeds_false_of_acyclic (ch : String → List String) (U : List String)
    (hU : ∀ n, ∀ c ∈ ch n, c ∈ U) (hnd : U.Nodup)
    (hacyc : ∀ x, ¬ Relation.TransGen (dfsRel ch) x x) (fuel : ℕ) :
    ∀ (rs : List String) (st : DfsSt), (∀ r ∈ rs, r ∈ U) → st.visiting = [] →
    freshCount U st < fuel → dfsSeeds ch fuel rs st = false := by
  intro rs
  induction rs with
  | nil =>
    intro st _ _ _
    rfl
  | cons r rs ih =>
    intro st hrs hvis hf
    rw [dfsSeeds]
    have hr := (dfs_total ch U hU hnd hacyc fuel).1 r st
      (by rw [hvis]; intro x hx; exact absurd hx (List.not_mem_nil x))
      (hrs r (List.mem_cons_self r rs)) hf
    rcases h1 : dfs ch fuel r st with ⟨b, st2⟩
    rw [h1] at hr
    cases b
    · obtain ⟨f1, f2, _, _, _⟩ := (dfs_false_spec ch fuel).1 r st st2 h1
      exact ih st2 (fun q hq => hrs q (List.mem_cons_of_mem r hq)) (f1.trans hvis)
        (lt_of_le_of_lt (freshCount_mono f1 f2) hf)
    · exact absurd hr (by simp)

theorem mem_vroots_of_edge {rows : List CoaRow} {x y : String}
    (h : edge rows x y) : x ∈ vroots rows := by
  rcases List.mem_map.mp h with ⟨r, hr, _⟩
  have hpar : pyStrip r.parent_id = x := by
    have := (List.mem_filter.mp hr).2
    simpa using this
  have hx : x ∈ vparents rows :=
    List.mem_map.mpr ⟨r, (List.mem_filter.mp hr).1, hpar⟩
  exact (mem_dedupFirst _ _).mpr (List.mem_append_left _ hx)

theorem hasCycleB_iff (rows : List CoaRow) : hasCycleB rows = true ↔ HasCycle rows := by
  constructor
  · intro h
    by_contra hnc
    have hacyc : ∀ x, ¬ Relation.TransGen (dfsRel (vchildren rows)) x x := by
      intro x hx
      exact hnc ⟨x, hx⟩
    have hfalse := dfsSeeds_false_of_acyclic (vchildren rows) (allNodes rows)
      (by
        intro n c hc
        rcases List.mem_map.mp hc with ⟨r, hrf, hid⟩
        have hcv : c ∈ vids rows := List.mem_map.mpr ⟨r, (List.mem_filter.mp hrf).1, hid⟩
        simp only [allNodes, mem_dedupFirst, List.mem_append]
        tauto)
      (nodup_dedupFirst _) hacyc (allNodes rows).length.succ (vroots rows) ⟨[], []⟩
      (by
        intro r hr
        simp only [vroots, mem_dedupFirst, List.mem_append] at hr
        simp only [allNodes, mem_dedupFirst, List.mem_append]
        tauto)
      rfl
      (by
        show ((allNodes rows).filter _).length < (allNodes rows).length + 1
        exact lt_of_le_of_lt (List.length_filter_le _ _) (Nat.lt_succ_self _))
    exact absurd h (by rw [hasCycleB, hfalse]; simp)
  · intro h
    by_contra hb
    have hfalse : hasCycleB rows = false := by
      cases hcb : hasCycleB rows
      · rfl
      · exact absurd hcb hb
    rcases h with ⟨x, hx⟩
    have hnocyc := dfsSeeds_false_nocyc (vchildren rows) (allNodes rows).length.succ
      (vroots rows) ⟨[], []⟩
      (by intro v hv; exact absurd hv (List.not_mem_nil v))
      (by intro v hv; exact absurd hv (List.not_mem_nil v))
      (by intro v hv; exact absurd hv (List.not_mem_nil v))
      hfalse
    rcases Relation.TransGen.head'_iff.mp hx with ⟨m, hm, _⟩
    exact hnocyc x (mem_vroots_of_edge hm) hx

theorem dupScan_eq_nil : ∀ (l seen : List String), l.Nodup → (∀ i ∈ l, i ∉ seen) →
    dupScan seen l = [] := by
  intro l
  induction l with
  | nil => intro seen _ _; rfl
  | cons i rest ih =>
    intro seen hnd hdisj
    have hcnt : seen.count i = 0 :=
      List.count_eq_zero.mpr (hdisj i (List.mem_cons_self i rest))
    rw [dupScan, if_neg (by omega)]
    refine ih (i :: seen) (List.nodup_cons.mp hnd).2 ?_
    intro j hj hmem
    rcases List.mem_cons.mp hmem with hji | hji
    · exact (List.nodup_cons.mp hnd).1 (hji ▸ hj)
    · exact hdisj j (List.mem_cons_of_mem i hj) hji

theorem dupIds_eq_nil {ids : List String} (h : ids.Nodup) : dupIds ids = [] :=
  dupScan_eq_nil ids [] h (fun i _ hmem => absurd hmem (List.not_mem_nil i))

/-! ## Claim C1: conservation of the ledger total -/

/-- C1 (counterexample): the claim quantifies over every chart of accounts,
but when an account is declared as its own parent and keyed to itself the
distribution step adds the balance to the account and then zeroes it, so
money is destroyed: with a single account `A` whose parent is `A`, cost 10
and key `A → A`, `allocate_costs` ends with total 0 while the parsed cost
total is 10. -/
theorem C1_counterexample :
    allocate_costs [⟨"A","A","x"⟩] [⟨"A","10"⟩] [⟨"A","A","1"⟩] 10000
        = .ok ([⟨"A","A","x",0⟩], [])
      ∧ parseCosts [⟨"A","10"⟩] = .ok [("A", 10)]
      ∧ (([(⟨"A","A","x",0⟩ : ResultRow)]).map ResultRow.amount).sum
          ≠ (([("A", (10:ℚ))]).map Prod.snd).sum := by
  refine ⟨?_, ?_, by norm_num⟩
  · have hp : parseCosts [⟨"A","10"⟩] = .ok [("A", 10)] := by
      simp [parseCosts, to_float, pyStrip, stripSpaces, commaToDot, parseDecimal, splitSign,
        splitAtExp, parseUMantissa, parseExpPart, natOfDigits, Char.isDigit, Char.isWhitespace]
    have ha : parseAlloc [⟨"A","A","1"⟩] = .ok [("A","A",1)] := by
      simp [parseAlloc, to_float, pyStrip, stripSpaces, commaToDot, parseDecimal, splitSign,
        splitAtExp, parseUMantissa, parseExpPart, natOfDigits, Char.isDigit, Char.isWhitespace]
    have hamt : touchAccounts (mkAccounts [⟨"A","A","x"⟩]) (buildAmt [("A", (10:ℚ))])
        = [("A",10)] := by
      simp [touchAccounts, mkAccounts, buildAmt, dadd, dget, dset, dmem, pyStrip]
    have hmap : mkAllocMap (mkAccounts [⟨"A","A","x"⟩]) (normalize_weights [("A","A",(1:ℚ))])
        = [("A",[("A",1)])] := by
      simp [mkAllocMap, mkAccounts, normalize_weights, firstKeys, dedupFirst, groupOf, rawSum,
        childrenOf, pyStrip]
    have hcore := allocCore_eq [⟨"A","A","x"⟩] 10000 hp ha
    rw [hamt, hmap] at hcore
    have hready : parentsReady [("A",[("A",(1:ℚ))])] [("A",(10:ℚ))] = ["A"] := by
      simp [parentsReady_cons, dget]
    have hrun : runReady [("A",[("A",(1:ℚ))])] ["A"] ⟨[("A",10)],[]⟩ false
        = (⟨[("A",0)],[]⟩, true) := by
      rw [runReady_cons_dist [] false (by simp [dget]) (by simp [amGet_cons])]
      simp [distribute, dadd, dget, dset, amGet_cons]
    have heng : engineLoop [("A",[("A",(1:ℚ))])] 10000 0 ⟨[("A",10)],[]⟩
        = (⟨[("A",0)],[]⟩, 2) := by
      show engineLoop _ (9999+1) 0 _ = _
      rw [engineLoop_succ_ne 9999 0 (by simp [hready])]
      rw [hready, hrun]
      exact engineLoop_pos_empty 1 (by norm_num) (by simp [parentsReady_cons, dget])
    rw [heng] at hcore
    rw [allocate_costs_of_core hcore]
    simp [sortRows, insRow, rowLe, mkRow, byId, mkAccounts, pyStrip]
  · simp [parseCosts, to_float, pyStrip, stripSpaces, commaToDot, parseDecimal, splitSign,
      splitAtExp, parseUMantissa, parseExpPart, natOfDigits, Char.isDigit, Char.isWhitespace]

/-- C1 (amended): for every chart of accounts in which no account row lists
itself as its own parent — in particular every acyclic chart — and every
cost and allocation-key list, the sum of the settled result amounts equals
the sum of the parsed initial cost amounts, in exact arithmetic, including
when balances are retained because of anomalous keys. -/
theorem C1_conservation (coa : List CoaRow) (costs : List CostRow) (alloc : List AllocRow)
    (maxIters : ℕ) (res : List ResultRow) (notes : List String) (pcs : List (String × ℚ))
    (hok : allocate_costs coa costs alloc maxIters = Except.ok (res, notes))
    (hpcs : parseCosts costs = .ok pcs)
    (hself : ∀ a ∈ mkAccounts coa, a.account_id ≠ a.parent_id) :
    (res.map ResultRow.amount).sum = (pcs.map Prod.snd).sum := by
  cases hpa : parseAlloc alloc with
  | error e =>
    rw [allocate_costs_error (allocCore_error_alloc coa maxIters hpcs hpa)] at hok
    cases hok
  | ok pal =>
    have hcore := allocCore_eq coa maxIters hpcs hpa
    rw [allocate_costs_of_core hcore] at hok
    injection Except.ok.inj hok with h1 h2
    rw [← h1, sum_result_eq]
    have hns : ∀ p,
        p ∉ (amGet (mkAllocMap (mkAccounts coa) (normalize_weights pal)) p).map Prod.fst :=
      notMem_amGet_self _ hself
    rw [engineLoop_dsum _ hns maxIters 0 _]
    show dsum (touchAccounts (mkAccounts coa) (buildAmt pcs)) = _
    rw [dsum_touchAccounts, dsum_buildAmt]

/-- C1 (witness): the conservation theorem applied to a concrete chart. -/
theorem C1_conservation_witness :
    (([(⟨"P","","",7⟩ : ResultRow)]).map ResultRow.amount).sum
      = (([("P", (7:ℚ))]).map Prod.snd).sum :=
  C1_conservation [⟨"P","",""⟩] [⟨"P","7"⟩] [] 1 [⟨"P","","",7⟩] [capNote] [("P",7)]
    (by simp [allocate_costs, allocCore, mkAccounts, parseCosts, parseAlloc, to_float, pyStrip,
      stripSpaces, commaToDot, parseDecimal, splitSign, splitAtExp, parseUMantissa, parseExpPart,
      natOfDigits, Char.isDigit, Char.isWhitespace, buildAmt, dadd, dget, dset, dmem,
      touchAccounts, normalize_weights, firstKeys, dedupFirst, groupOf, rawSum, mkAllocMap,
      childrenOf, engineLoop, parentsReady, runReady, distribute, sortRows, insRow, rowLe,
      mkRow, byId])
    (by simp [parseCosts, to_float, pyStrip, stripSpaces, commaToDot, parseDecimal, splitSign,
      splitAtExp, parseUMantissa, parseExpPart, natOfDigits, Char.isDigit, Char.isWhitespace])
    (by simp [mkAccounts, pyStrip])

/-! ## Claim C3: retained balances and missing diagnostics (code bug) -/

/-- C3 (code evaluation at the failing input): for the spec's key-to-non-child
scenario — account 400 with child 410, cost 50 on 400, key 400 → 999 — the
balance is retained (400 keeps 50) but the returned note list is empty, even
though the claim, the spec and the repository's own test
`test_allocation_to_non_child_is_ignored` require a diagnostic note: the
entry list of 400 is emptied by the non-child filter, so 400 never enters
`parents_ready` and the note branch is unreachable. -/
theorem C3_filtered_key_no_note :
    allocate_costs [⟨"400","","R"⟩, ⟨"410","400","G"⟩] [⟨"400","50"⟩]
      [⟨"400","999","1"⟩] 10000
      = .ok ([⟨"400","","R",50⟩, ⟨"410","400","G",0⟩], []) := by
  have hp : parseCosts [⟨"400","50"⟩] = .ok [("400", 50)] := by
    simp [parseCosts, to_float, pyStrip, stripSpaces, commaToDot, parseDecimal, splitSign,
      splitAtExp, parseUMantissa, parseExpPart, natOfDigits, Char.isDigit, Char.isWhitespace]
  have ha : parseAlloc [⟨"400","999","1"⟩] = .ok [("400","999",1)] := by
    simp [parseAlloc, to_float, pyStrip, stripSpaces, commaToDot, parseDecimal, splitSign,
      splitAtExp, parseUMantissa, parseExpPart, natOfDigits, Char.isDigit, Char.isWhitespace]
  have hamt : touchAccounts (mkAccounts [⟨"400","","R"⟩, ⟨"410","400","G"⟩])
      (buildAmt [("400", (50:ℚ))]) = [("400",50),("410",0)] := by
    simp [touchAccounts, mkAccounts, buildAmt, dadd, dget, dset, dmem, pyStrip]
  have hmap : mkAllocMap (mkAccounts [⟨"400","","R"⟩, ⟨"410","400","G"⟩])
      (normalize_weights [("400","999",(1:ℚ))]) = [("400",[])] := by
    simp [mkAllocMap, mkAccounts, normalize_weights, firstKeys, dedupFirst, groupOf, rawSum,
      childrenOf, pyStrip]
  have hcore := allocCore_eq [⟨"400","","R"⟩, ⟨"410","400","G"⟩] 10000 hp ha
  rw [hamt, hmap] at hcore
  have heng : engineLoop [("400",[])] 10000 0 ⟨[("400",50),("410",0)],[]⟩
      = (⟨[("400",50),("410",0)],[]⟩, 1) :=
    engineLoop_pos_empty 0 (by norm_num) (by simp [parentsReady_cons])
  rw [heng] at hcore
  rw [allocate_costs_of_core hcore]
  simp [sortRows, insRow, rowLe, mkRow, byId, mkAccounts, pyStrip]

/-! ## Claim C5: numeric parsing -/

/-- C5: `_to_float` returns 0 when the stripped string is empty; otherwise it
removes internal spaces, turns commas into periods and parses the result as
a decimal number, raising an error naming the raw value when parsing fails;
"1 234,56" parses to 1234.56, and an unparseable cost amount makes the whole
allocation call fail. -/
theorem C5_to_float_spec :
    (∀ s : String, pyStrip s = "" → to_float s = .ok 0) ∧
    (∀ s : String, pyStrip s ≠ "" →
      to_float s =
        match parseDecimal (commaToDot (stripSpaces (pyStrip s))) with
        | some q => .ok q
        | none => .error ("Nieprawidłowa liczba: \x27" ++ s ++ "\x27")) ∧
    to_float "1 234,56" = .ok (123456/100) ∧
    allocate_costs [⟨"10","","R"⟩] [⟨"10","abc"⟩] [] 10000
      = .error ("Nieprawidłowa liczba: \x27abc\x27") := by
  refine ⟨?_, ?_, ?_, ?_⟩
  · intro s h
    simp [to_float, h]
  · intro s h
    simp [to_float, h]
  · simp [to_float, pyStrip, stripSpaces, commaToDot, parseDecimal, splitSign, splitAtExp,
      parseUMantissa, parseExpPart, natOfDigits, Char.isDigit, Char.isWhitespace]
    norm_num
  · have hp : parseCosts [⟨"10","abc"⟩] = .error ("Nieprawidłowa liczba: \x27abc\x27") := by
      simp [parseCosts, to_float, pyStrip, stripSpaces, commaToDot, parseDecimal, splitSign,
        splitAtExp, parseUMantissa, parseExpPart, natOfDigits, Char.isDigit, Char.isWhitespace]
    exact allocate_costs_error (allocCore_error_costs _ _ _ hp)

/-- C5 (witness): the parsing characterization applied to concrete strings. -/
theorem C5_to_float_witness :
    to_float "  " = Except.ok 0 ∧
    to_float "zz" = Except.error ("Nieprawidłowa liczba: \x27zz\x27") := by
  constructor
  · exact C5_to_float_spec.1 "  " (by simp [pyStrip, Char.isWhitespace])
  · rw [C5_to_float_spec.2.1 "zz" (by simp [pyStrip, Char.isWhitespace])]
    simp [pyStrip, stripSpaces, commaToDot, parseDecimal, splitSign, splitAtExp,
      parseUMantissa, parseExpPart, Char.isDigit, Char.isWhitespace]

/-! ## Claim C4: normalized-allocation-map fraction sums -/

/-- C4 (counterexample): when one of a parent's key entries is dropped by the
non-child filter, the remaining list is nonempty with fractions summing to
1/2, not 1: parent `P` with sole child `A` and key entries `P → A : 1`,
`P → X : 1` gives the engine the list `[(A, 1/2)]`. -/
theorem C4_counterexample :
    amGet (mkAllocMap (mkAccounts [⟨"P","",""⟩,⟨"A","P",""⟩])
        (normalize_weights [("P","A",(1:ℚ)),("P","X",1)])) "P" = [("A", 1/2)]
    ∧ (([("A", (1/2:ℚ))] : List (String × ℚ)).map Prod.snd).sum ≠ 1
    ∧ ([("A", (1/2:ℚ))] : List (String × ℚ)) ≠ [] := by
  refine ⟨?_, by norm_num, by simp⟩
  simp [mkAllocMap, mkAccounts, normalize_weights, firstKeys, dedupFirst, groupOf, rawSum,
    childrenOf, pyStrip, amGet_cons]
  norm_num

/-- C4 (amended): for every parsed allocation-key list and adjacency, the
per-parent entry list the engine uses has fractions summing to 1 whenever
the parent's raw weight sum is nonzero and every entry's child is a direct
child of the parent; a zero raw sum or a dropped (non-child) entry may leave
a nonempty list summing to a different value, which the engine compensates
for by re-normalizing at distribution time. -/
theorem C4_normalized_sum (l : List (String × String × ℚ)) (accs : List Account) (p : String)
    (hp : p ∈ firstKeys l) (hs : rawSum l p ≠ 0)
    (hch : ∀ cw ∈ groupOf l p, cw.1 ∈ childrenOf accs p) :
    ((amGet (mkAllocMap accs (normalize_weights l)) p).map Prod.snd).sum = 1 := by
  rw [amGet_mkAllocMap, amGet_normalize hp]
  simp only [if_neg hs]
  have hfilter : ((groupOf l p).map (fun cw => (cw.1, cw.2 / rawSum l p))).filter
      (fun cw => decide (cw.1 ∈ childrenOf accs p))
      = (groupOf l p).map (fun cw => (cw.1, cw.2 / rawSum l p)) := by
    apply List.filter_eq_self.mpr
    intro cw hcw
    rcases List.mem_map.mp hcw with ⟨cw0, hcw0, heq⟩
    rw [← heq]
    exact decide_eq_true (hch cw0 hcw0)
  rw [hfilter, List.map_map]
  have hcomp : (Prod.snd ∘ fun cw : String × ℚ => (cw.1, cw.2 / rawSum l p))
      = fun cw : String × ℚ => cw.2 * (rawSum l p)⁻¹ := by
    funext cw
    simp [div_eq_mul_inv]
  rw [hcomp, List.sum_map_mul_right]
  have hraw : ((groupOf l p).map (fun cw : String × ℚ => cw.2)).sum = rawSum l p := rfl
  rw [hraw, mul_inv_cancel₀ hs]

/-- C4 (witness): the amended sum-to-1 statement at a concrete key list. -/
theorem C4_normalized_sum_witness :
    ((amGet (mkAllocMap (mkAccounts [⟨"P","",""⟩,⟨"A","P",""⟩,⟨"B","P",""⟩])
        (normalize_weights [("P","A",(1:ℚ)),("P","B",1)])) "P").map Prod.snd).sum = 1 :=
  C4_normalized_sum [("P","A",(1:ℚ)),("P","B",1)]
    (mkAccounts [⟨"P","",""⟩,⟨"A","P",""⟩,⟨"B","P",""⟩]) "P"
    (by simp [firstKeys, dedupFirst])
    (by norm_num [rawSum, groupOf])
    (by simp [groupOf, childrenOf, mkAccounts, pyStrip])

/-! ## Claim C9: idempotence of a settled state -/

/-- C9 (counterexample): on a settled ledger (no account both nonzero and
with a usable key) the loop leaves amounts alone but appends one more skip
note for each stuck ready parent, so the notes sequence is not left exactly
as it was: parent `P` with amount 10 and a zero-weight entry list gains the
note again. -/
theorem C9_counterexample :
    engineLoop [("P", [("C", (0:ℚ))])] 10000 0 ⟨[("P",10),("C",0)], []⟩
      = (⟨[("P",10),("C",0)], [noteSkip "P"]⟩, 1)
    ∧ (∀ p, capable [("P", [("C", (0:ℚ))])] p → dget [("P",(10:ℚ)),("C",0)] p 0 = 0)
    ∧ [noteSkip "P"] ≠ ([] : List String) := by
  refine ⟨?_, ?_, by simp⟩
  · have hready : parentsReady [("P", [("C", (0:ℚ))])] [("P",(10:ℚ)),("C",0)] = ["P"] := by
      simp [parentsReady_cons, dget]
    show engineLoop _ (9999+1) 0 _ = _
    rw [engineLoop_succ_ne 9999 0 (by simp [hready])]
    rw [hready]
    rw [runReady_cons_note [] false (by simp [dget]) (Or.inl (by simp [amGet_cons]))]
    simp
  · intro p hcap
    exfalso
    by_cases hp : "P" = p
    · subst hp
      simp [capable, amGet_cons] at hcap
    · exact hcap.1 (by simp [amGet_cons, hp])

/-- C9 (amended): on a ledger where no account both holds a nonzero amount
and has a usable key, the cascading loop makes a single pass with no
distribution and returns the amounts unchanged; the notes grow by exactly
one skip note per (stuck) ready parent, and are unchanged precisely when no
parent is ready. -/
theorem C9_settled (am : WMap) (st : EngState) (fuel : ℕ) (hfuel : 0 < fuel)
    (hnd : (wkeys am).Nodup)
    (hcap : ∀ p, capable am p → dget st.amt p 0 = 0) :
    engineLoop am fuel 0 st
      = (⟨st.amt, st.notes ++ (parentsReady am st.amt).map noteSkip⟩, 1) := by
  cases fuel with
  | zero => cases hfuel
  | succ fuel =>
    by_cases hr : parentsReady am st.amt = []
    · rw [engineLoop_succ_empty fuel 0 hr, hr]
      simp
    · rw [engineLoop_succ_ne fuel 0 hr]
      rw [runReady_no_progress am _ st (fun p hp => mem_parentsReady hnd hp) hcap]

/-- C9 (witness): the settled-state equation at a concrete state. -/
theorem C9_settled_witness :
    engineLoop [] 5 0 ⟨[("X",3)],["n"]⟩
      = (⟨[("X",(3:ℚ))], ["n"] ++ (parentsReady [] [("X",(3:ℚ))]).map noteSkip⟩, 1) :=
  C9_settled [] ⟨[("X",3)],["n"]⟩ 5 (by norm_num) (by simp)
    (fun _ h => absurd rfl h.1)

/-! ## Claim C10: cost rows for undeclared accounts -/

/-- C10: a cost row naming an account id that is not declared in the chart is
neither rejected nor dropped: the settled output contains a record for that
id with empty parent id and empty name carrying its ledger amount, and the
output can therefore have more records than the chart declares (concretely:
a one-account chart with a cost on an unknown account yields two records). -/
theorem C10_unknown_account (coa : List CoaRow) (costs : List CostRow) (alloc : List AllocRow)
    (maxIters : ℕ) (st : EngState) (it : ℕ) (am : WMap) (accs : List Account)
    (res : List ResultRow) (notes : List String) (i : String)
    (hcore : allocCore coa costs alloc maxIters = .ok (st, it, am, accs))
    (hok : allocate_costs coa costs alloc maxIters = .ok (res, notes))
    (hi : i ∈ costs.map (fun r => pyStrip r.account_id))
    (hni : i ∉ accs.map Account.account_id) :
    (∃ r ∈ res, r.account_id = i ∧ r.parent_id = "" ∧ r.name = ""
      ∧ r.amount = dget st.amt i 0)
    ∧ (allocate_costs [⟨"K","","n"⟩] [⟨"Z","5"⟩] [] 10000
        = .ok ([⟨"K","","n",0⟩, ⟨"Z","","",5⟩], [])
       ∧ ([(⟨"K","","n",0⟩ : ResultRow), ⟨"Z","","",5⟩]).length
           > ([(⟨"K","","n"⟩ : CoaRow)]).length) := by
  constructor
  · rw [allocate_costs_of_core hcore] at hok
    injection Except.ok.inj hok with h1 h2
    cases hpc : parseCosts costs with
    | error e =>
      rw [allocCore_error_costs coa alloc maxIters hpc] at hcore
      cases hcore
    | ok pcs =>
      cases hpa : parseAlloc alloc with
      | error e =>
        rw [allocCore_error_alloc coa maxIters hpc hpa] at hcore
        cases hcore
      | ok pal =>
        rw [allocCore_eq coa maxIters hpc hpa] at hcore
        injection Except.ok.inj hcore with hst hrest
        injection hrest with hit hrest
        injection hrest with ham haccs
        have hkey0 : i ∈ dkeys (buildAmt pcs) :=
          mem_dkeys_buildAmt (by rw [parseCosts_fst hpc]; exact hi)
        have hkey1 : i ∈ dkeys (touchAccounts (mkAccounts coa) (buildAmt pcs)) :=
          mem_dkeys_touchAccounts _ _ hkey0
        have hkey : i ∈ dkeys st.amt := by
          rw [← hst]
          exact engineLoop_keys_mem _ maxIters 0 _ hkey1
        have hnd : (dkeys st.amt).Nodup := by
          rw [← hst]
          exact engineLoop_keys_nodup _ maxIters 0 _
            (nodup_dkeys_touchAccounts _ _ (nodup_dkeys_buildAmt pcs))
        rcases List.mem_map.mp hkey with ⟨kv, hkv, hkvi⟩
        refine ⟨mkRow accs kv, ?_, ?_⟩
        · rw [← h1]
          exact (sortRows_perm _).mem_iff.mpr (List.mem_map_of_mem (mkRow accs) hkv)
        · have hbid : byId accs kv.1 = ⟨i, "", ""⟩ := by
            rw [hkvi]
            exact byId_not_mem hni
          refine ⟨?_, ?_, ?_, ?_⟩
          · show (byId accs kv.1).account_id = i
            rw [hbid]
          · show (byId accs kv.1).parent_id = ""
            rw [hbid]
          · show (byId accs kv.1).name = ""
            rw [hbid]
          · show kv.2 = dget st.amt i 0
            rw [← hkvi]
            exact (dget_eq_of_mem_nodup hkv hnd 0).symm
  · refine ⟨?_, by norm_num⟩
    have hp : parseCosts [⟨"Z","5"⟩] = .ok [("Z", 5)] := by
      simp [parseCosts, to_float, pyStrip, stripSpaces, commaToDot, parseDecimal, splitSign,
        splitAtExp, parseUMantissa, parseExpPart, natOfDigits, Char.isDigit, Char.isWhitespace]
    have ha : parseAlloc [] = .ok [] := rfl
    have hcore2 := allocCore_eq [⟨"K","","n"⟩] 10000 hp ha
    have hamt : touchAccounts (mkAccounts [⟨"K","","n"⟩]) (buildAmt [("Z", (5:ℚ))])
        = [("Z",5),("K",0)] := by
      simp [touchAccounts, mkAccounts, buildAmt, dadd, dget, dset, dmem, pyStrip]
    have hmap : mkAllocMap (mkAccounts [⟨"K","","n"⟩]) (normalize_weights []) = [] := rfl
    rw [hamt, hmap] at hcore2
    have heng : engineLoop [] 10000 0 ⟨[("Z",5),("K",0)],[]⟩
        = (⟨[("Z",5),("K",0)],[]⟩, 1) :=
      engineLoop_pos_empty 0 (by norm_num) (by simp)
    rw [heng] at hcore2
    rw [allocate_costs_of_core hcore2]
    simp [sortRows, insRow, rowLe, mkRow, byId, mkAccounts, pyStrip]
    decide

/-- C10 (witness): the undeclared-account record at a concrete input. -/
theorem C10_unknown_account_witness :
    (∃ r ∈ [(⟨"K","","n",0⟩ : ResultRow), ⟨"Z","","",5⟩], r.account_id = "Z"
      ∧ r.parent_id = "" ∧ r.name = ""
      ∧ r.amount = dget [("Z",(5:ℚ)),("K",0)] "Z" 0)
    ∧ (allocate_costs [⟨"K","","n"⟩] [⟨"Z","5"⟩] [] 10000
        = .ok ([⟨"K","","n",0⟩, ⟨"Z","","",5⟩], [])
       ∧ ([(⟨"K","","n",0⟩ : ResultRow), ⟨"Z","","",5⟩]).length
           > ([(⟨"K","","n"⟩ : CoaRow)]).length) :=
  by
  have hp : parseCosts [⟨"Z","5"⟩] = .ok [("Z", 5)] := by
    simp [parseCosts, to_float, pyStrip, stripSpaces, commaToDot, parseDecimal, splitSign,
      splitAtExp, parseUMantissa, parseExpPart, natOfDigits, Char.isDigit, Char.isWhitespace]
  have hamt : touchAccounts (mkAccounts [⟨"K","","n"⟩]) (buildAmt [("Z", (5:ℚ))])
      = [("Z",5),("K",0)] := by
    simp [touchAccounts, mkAccounts, buildAmt, dadd, dget, dset, dmem, pyStrip]
  have heng : engineLoop [] 1 0 ⟨[("Z",5),("K",0)],[]⟩ = (⟨[("Z",5),("K",0)],[]⟩, 1) :=
    engineLoop_pos_empty 0 (by norm_num) (by simp)
  have hcore : allocCore [⟨"K","","n"⟩] [⟨"Z","5"⟩] [] 1
      = .ok (⟨[("Z",5),("K",0)],[]⟩, 1, [], [⟨"K","","n"⟩]) := by
    have h := allocCore_eq [⟨"K","","n"⟩] 1 hp (show parseAlloc [] = .ok [] from rfl)
    rw [hamt, show mkAllocMap (mkAccounts [⟨"K","","n"⟩]) (normalize_weights []) = []
      from rfl, heng] at h
    rw [h]
    simp [mkAccounts, pyStrip]
  have hok : allocate_costs [⟨"K","","n"⟩] [⟨"Z","5"⟩] [] 1
      = .ok ([⟨"K","","n",0⟩, ⟨"Z","","",5⟩], [capNote]) := by
    rw [allocate_costs_of_core hcore]
    simp [sortRows, insRow, rowLe, mkRow, byId, mkAccounts, pyStrip]
    decide
  exact C10_unknown_account [⟨"K","","n"⟩] [⟨"Z","5"⟩] [] 1
    ⟨[("Z",5),("K",0)],[]⟩ 1 [] [⟨"K","","n"⟩]
    [⟨"K","","n",0⟩, ⟨"Z","","",5⟩] [capNote] "Z" hcore hok
    (by simp [pyStrip])
    (by simp [mkAccounts, pyStrip])

/-! ## Claim C6: result assembly -/

/-- C6: the settled output is sorted ascending lexicographically by
`(parent id, account id)`; every account declared in the chart has exactly
one record (including accounts whose final amount is zero, because every
declared account gets a ledger entry); and each record carries the account
id, the chart's parent id and name for that id, and the numeric ledger
amount. -/
theorem C6_result_assembly (coa : List CoaRow) (costs : List CostRow) (alloc : List AllocRow)
    (maxIters : ℕ) (st : EngState) (it : ℕ) (am : WMap) (accs : List Account)
    (res : List ResultRow) (notes : List String)
    (hcore : allocCore coa costs alloc maxIters = .ok (st, it, am, accs))
    (hok : allocate_costs coa costs alloc maxIters = .ok (res, notes)) :
    res.Pairwise RowLeP
    ∧ (∀ r0 ∈ coa, (res.filter (fun r => r.account_id == pyStrip r0.account_id)).length = 1)
    ∧ (∀ r ∈ res, r.parent_id = (byId accs r.account_id).parent_id
        ∧ r.name = (byId accs r.account_id).name
        ∧ r.amount = dget st.amt r.account_id 0) := by
  rw [allocate_costs_of_core hcore] at hok
  injection Except.ok.inj hok with h1 h2
  cases hpc : parseCosts costs with
  | error e => rw [allocCore_error_costs coa alloc maxIters hpc] at hcore; cases hcore
  | ok pcs =>
  cases hpa : parseAlloc alloc with
  | error e => rw [allocCore_error_alloc coa maxIters hpc hpa] at hcore; cases hcore
  | ok pal =>
  rw [allocCore_eq coa maxIters hpc hpa] at hcore
  injection Except.ok.inj hcore with hst hrest
  injection hrest with hit hrest
  injection hrest with ham haccs
  have hnd : (dkeys st.amt).Nodup := by
    rw [← hst]
    exact engineLoop_keys_nodup _ maxIters 0 _
      (nodup_dkeys_touchAccounts _ _ (nodup_dkeys_buildAmt pcs))
  refine ⟨?_, ?_, ?_⟩
  · rw [← h1]
    exact (sortRows_sorted _).imp (fun h => (rowLe_iff _ _).mp h)
  · intro r0 hr0
    have hdecl : pyStrip r0.account_id ∈ dkeys st.amt := by
      rw [← hst]
      refine engineLoop_keys_mem _ maxIters 0 _ ?_
      exact account_mem_dkeys_touchAccounts _ _
        (List.mem_map_of_mem (fun r => (⟨pyStrip r.account_id, pyStrip r.parent_id,
          pyStrip r.name⟩ : Account)) hr0)
    rw [← h1]
    rw [← List.countP_eq_length_filter]
    rw [(sortRows_perm _).countP_eq]
    rw [List.countP_map]
    have hcong : st.amt.countP ((fun r => r.account_id == pyStrip r0.account_id) ∘ mkRow accs)
        = st.amt.countP (fun kv => kv.1 == pyStrip r0.account_id) := by
      refine List.countP_congr ?_
      intro kv _
      show ((mkRow accs kv).account_id == pyStrip r0.account_id) = true
        ↔ (kv.1 == pyStrip r0.account_id) = true
      rw [mkRow_account_id]
    rw [hcong]
    have hcnt : st.amt.countP (fun kv => kv.1 == pyStrip r0.account_id)
        = (dkeys st.amt).count (pyStrip r0.account_id) := by
      show _ = (dkeys st.amt).countP (· == pyStrip r0.account_id)
      rw [dkeys, List.countP_map]
      rfl
    rw [hcnt]
    exact List.count_eq_one_of_mem hnd hdecl
  · intro r hr
    rw [← h1] at hr
    have hr2 : r ∈ st.amt.map (mkRow accs) := (sortRows_perm _).mem_iff.mp hr
    rcases List.mem_map.mp hr2 with ⟨kv, hkv, hrkv⟩
    have hacc : r.account_id = kv.1 := by rw [← hrkv]; exact mkRow_account_id accs kv
    refine ⟨?_, ?_, ?_⟩
    · rw [hacc, ← hrkv]
      exact mkRow_parent_id accs kv
    · rw [hacc, ← hrkv]
      exact mkRow_name accs kv
    · rw [hacc, ← hrkv, mkRow_amount]
      exact (dget_eq_of_mem_nodup hkv hnd 0).symm

/-- C6 (witness): the assembly properties at a concrete chart. -/
theorem C6_result_assembly_witness :
    ([(⟨"K","","n",4⟩ : ResultRow)]).Pairwise RowLeP
    ∧ (∀ r0 ∈ [(⟨"K","","n"⟩ : CoaRow)],
        (([(⟨"K","","n",4⟩ : ResultRow)]).filter
          (fun r => r.account_id == pyStrip r0.account_id)).length = 1)
    ∧ (∀ r ∈ [(⟨"K","","n",4⟩ : ResultRow)],
        r.parent_id = (byId [⟨"K","","n"⟩] r.account_id).parent_id
        ∧ r.name = (byId [⟨"K","","n"⟩] r.account_id).name
        ∧ r.amount = dget [("K",(4:ℚ))] r.account_id 0) := by
  have hp : parseCosts [⟨"K","4"⟩] = .ok [("K", 4)] := by
    simp [parseCosts, to_float, pyStrip, stripSpaces, commaToDot, parseDecimal, splitSign,
      splitAtExp, parseUMantissa, parseExpPart, natOfDigits, Char.isDigit, Char.isWhitespace]
  have hamt : touchAccounts (mkAccounts [⟨"K","","n"⟩]) (buildAmt [("K", (4:ℚ))])
      = [("K",4)] := by
    simp [touchAccounts, mkAccounts, buildAmt, dadd, dget, dset, dmem, pyStrip]
  have heng : engineLoop [] 1 0 ⟨[("K",4)],[]⟩ = (⟨[("K",4)],[]⟩, 1) :=
    engineLoop_pos_empty 0 (by norm_num) (by simp)
  have hcore : allocCore [⟨"K","","n"⟩] [⟨"K","4"⟩] [] 1
      = .ok (⟨[("K",4)],[]⟩, 1, [], [⟨"K","","n"⟩]) := by
    have h := allocCore_eq [⟨"K","","n"⟩] 1 hp (show parseAlloc [] = .ok [] from rfl)
    rw [hamt, show mkAllocMap (mkAccounts [⟨"K","","n"⟩]) (normalize_weights []) = []
      from rfl, heng] at h
    rw [h]
    simp [mkAccounts, pyStrip]
  have hok : allocate_costs [⟨"K","","n"⟩] [⟨"K","4"⟩] [] 1
      = .ok ([⟨"K","","n",4⟩], [capNote]) := by
    rw [allocate_costs_of_core hcore]
    simp [sortRows, insRow, rowLe, mkRow, byId, mkAccounts, pyStrip]
  exact C6_result_assembly [⟨"K","","n"⟩] [⟨"K","4"⟩] [] 1
    ⟨[("K",4)],[]⟩ 1 [] [⟨"K","","n"⟩] [⟨"K","","n",4⟩] [capNote] hcore hok


/-! ## Claim C8: weight-representation invariance -/


theorem scaleSnd_sum (c : ℚ) (l : List (String × ℚ)) :
    ((scaleSnd c l).map Prod.snd).sum = c * (l.map Prod.snd).sum := by
  unfold scaleSnd
  rw [List.map_map]
  have : (Prod.snd ∘ fun cw : String × ℚ => (cw.1, c * cw.2))
      = fun cw : String × ℚ => c * cw.2 := rfl
  rw [this, List.sum_map_mul_left]

theorem scaleSnd_eq_nil_iff (c : ℚ) (l : List (String × ℚ)) :
    scaleSnd c l = [] ↔ l = [] := by
  unfold scaleSnd
  exact List.map_eq_nil_iff

theorem scaleSnd_one (l : List (String × ℚ)) : scaleSnd 1 l = l := by
  unfold scaleSnd
  simp

theorem firstKeys_scaleTriples (lam : String → ℚ) (l : List (String × String × ℚ)) :
    firstKeys (scaleTriples lam l) = firstKeys l := by
  unfold firstKeys scaleTriples
  rw [List.map_map]
  rfl

theorem groupOf_scaleTriples (lam : String → ℚ) (l : List (String × String × ℚ)) (p : String) :
    groupOf (scaleTriples lam l) p = scaleSnd (lam p) (groupOf l p) := by
  unfold groupOf scaleTriples scaleSnd
  rw [List.filter_map]
  have hpred : ((fun t : String × String × ℚ => t.1 == p)
      ∘ fun t : String × String × ℚ => (t.1, t.2.1, lam t.1 * t.2.2))
      = fun t : String × String × ℚ => t.1 == p := rfl
  rw [hpred, List.map_map, List.map_map]
  apply List.map_congr_left
  intro t ht
  have hp : t.1 = p := by simpa using (List.mem_filter.mp ht).2
  simp [Function.comp, hp]

theorem rawSum_scaleTriples (lam : String → ℚ) (l : List (String × String × ℚ)) (p : String) :
    rawSum (scaleTriples lam l) p = lam p * rawSum l p := by
  unfold rawSum
  rw [groupOf_scaleTriples, scaleSnd_sum]


theorem scaleSnd_filter (c : ℚ) (pr : String → Bool) (l : List (String × ℚ)) :
    (scaleSnd c l).filter (fun cw => pr cw.1) = scaleSnd c (l.filter (fun cw => pr cw.1)) := by
  unfold scaleSnd
  rw [List.filter_map]
  have hpred : ((fun cw : String × ℚ => pr cw.1) ∘ fun cw : String × ℚ => (cw.1, c * cw.2))
      = fun cw : String × ℚ => pr cw.1 := rfl
  rw [hpred]

theorem amGet_norm_scaled (lam : String → ℚ) (hlam : ∀ p, 0 < lam p)
    (l : List (String × String × ℚ)) (p : String) :
    ∃ μ : ℚ, 0 < μ ∧
      amGet (normalize_weights (scaleTriples lam l)) p
        = scaleSnd μ (amGet (normalize_weights l) p) := by
  by_cases hp : p ∈ firstKeys l
  · have hp2 : p ∈ firstKeys (scaleTriples lam l) := by
      rw [firstKeys_scaleTriples]; exact hp
    rw [amGet_normalize hp, amGet_normalize hp2]
    rw [groupOf_scaleTriples, rawSum_scaleTriples]
    by_cases hs : rawSum l p = 0
    · refine ⟨lam p, hlam p, ?_⟩
      rw [hs, mul_zero]
      simp only [if_pos rfl]
      unfold scaleSnd
      rw [List.map_map, List.map_map]
      apply List.map_congr_left
      intro cw _
      simp [Function.comp, div_one]
    · refine ⟨1, one_pos, ?_⟩
      have hlam0 : lam p ≠ 0 := ne_of_gt (hlam p)
      have hs2 : lam p * rawSum l p ≠ 0 := mul_ne_zero hlam0 hs
      rw [if_neg hs2, if_neg hs, scaleSnd_one]
      unfold scaleSnd
      rw [List.map_map]
      apply List.map_congr_left
      intro cw _
      simp only [Function.comp]
      rw [mul_div_mul_left _ _ hlam0]
  · have hp2 : p ∉ firstKeys (scaleTriples lam l) := by
      rw [firstKeys_scaleTriples]; exact hp
    refine ⟨1, one_pos, ?_⟩
    rw [amGet_eq_nil_of_not_mem (by rw [wkeys_normalize]; exact hp2),
      amGet_eq_nil_of_not_mem (by rw [wkeys_normalize]; exact hp)]
    rfl

theorem amGet_map_scaled (lam : String → ℚ) (hlam : ∀ p, 0 < lam p)
    (l : List (String × String × ℚ)) (accs : List Account) (p : String) :
    ∃ μ : ℚ, 0 < μ ∧
      amGet (mkAllocMap accs (normalize_weights (scaleTriples lam l))) p
        = scaleSnd μ (amGet (mkAllocMap accs (normalize_weights l)) p) := by
  rcases amGet_norm_scaled lam hlam l p with ⟨μ, hμ, hget⟩
  refine ⟨μ, hμ, ?_⟩
  rw [amGet_mkAllocMap, amGet_mkAllocMap, hget]
  exact scaleSnd_filter μ (fun x => decide (x ∈ childrenOf accs p)) _

theorem parentsReady_eq_keys (am : WMap) (amt : Amt) (hnd : (wkeys am).Nodup) :
    parentsReady am amt
      = (wkeys am).filter (fun p => decide (dget amt p 0 ≠ 0) && !(amGet am p).isEmpty) := by
  induction am with
  | nil => rfl
  | cons e am ih =>
    rw [wkeys_cons] at hnd
    have hnd' := List.nodup_cons.mp hnd
    have hge : amGet (e :: am) e.1 = e.2 := by rw [amGet_cons, if_pos rfl]
    have htail : (wkeys am).filter
          (fun p => decide (dget amt p 0 ≠ 0) && !(amGet (e :: am) p).isEmpty)
        = (wkeys am).filter (fun p => decide (dget amt p 0 ≠ 0) && !(amGet am p).isEmpty) := by
      apply List.filter_congr
      intro p hp
      have hne : e.1 ≠ p := fun hh => hnd'.1 (hh ▸ hp)
      rw [amGet_cons, if_neg hne]
    unfold parentsReady
    rw [List.filter_cons, wkeys_cons, List.filter_cons, hge]
    by_cases hc : (decide (dget amt e.1 0 ≠ 0) && !e.2.isEmpty) = true
    · rw [if_pos hc, if_pos hc, List.map_cons]
      show e.1 :: parentsReady am amt = _
      rw [ih hnd'.2, htail]
    · rw [if_neg hc, if_neg hc]
      show parentsReady am amt = _
      rw [ih hnd'.2, htail]

theorem parentsReady_congr {am1 am2 : WMap} (hk : wkeys am2 = wkeys am1)
    (hnd : (wkeys am1).Nodup)
    (hget : ∀ p, ∃ μ : ℚ, 0 < μ ∧ amGet am2 p = scaleSnd μ (amGet am1 p)) (amt : Amt) :
    parentsReady am2 amt = parentsReady am1 amt := by
  rw [parentsReady_eq_keys am2 amt (by rw [hk]; exact hnd), parentsReady_eq_keys am1 amt hnd, hk]
  apply List.filter_congr
  intro p _
  rcases hget p with ⟨μ, hμ, hgp⟩
  rw [hgp]
  unfold scaleSnd
  cases amGet am1 p <;> rfl

theorem distribute_scaled (amt : Amt) (amount s μ : ℚ) (hμ : μ ≠ 0)
    (targets : List (String × ℚ)) :
    distribute amt amount (μ * s) (scaleSnd μ targets) = distribute amt amount s targets := by
  induction targets generalizing amt with
  | nil => rfl
  | cons cw ts ih =>
    show distribute amt amount (μ * s) ((cw.1, μ * cw.2) :: scaleSnd μ ts) = _
    rw [distribute_cons, distribute_cons]
    show distribute (dadd amt cw.1 (amount * (μ * cw.2 / (μ * s)))) amount (μ * s) (scaleSnd μ ts) = _
    rw [mul_div_mul_left _ _ hμ, ih]

theorem runReady_congr {am1 am2 : WMap}
    (hget : ∀ p, ∃ μ : ℚ, 0 < μ ∧ amGet am2 p = scaleSnd μ (amGet am1 p)) :
    ∀ (ps : List String) (st : EngState) (prog : Bool),
      runReady am2 ps st prog = runReady am1 ps st prog := by
  intro ps
  induction ps with
  | nil => intro st prog; rfl
  | cons p ps ih =>
    intro st prog
    rcases hget p with ⟨μ, hμ, hgp⟩
    have hs2 : ((amGet am2 p).map Prod.snd).sum = μ * ((amGet am1 p).map Prod.snd).sum := by
      rw [hgp, scaleSnd_sum]
    by_cases h0 : dget st.amt p 0 = 0
    · rw [runReady_cons_zero ps prog h0, runReady_cons_zero ps prog h0, ih]
    · by_cases hc : ((amGet am1 p).map Prod.snd).sum ≤ 0 ∨ amGet am1 p = []
      · have hc2 : ((amGet am2 p).map Prod.snd).sum ≤ 0 ∨ amGet am2 p = [] := by
          rcases hc with hc | hc
          · exact Or.inl (by rw [hs2]; exact mul_nonpos_of_nonneg_of_nonpos (le_of_lt hμ) hc)
          · exact Or.inr (by rw [hgp, hc]; rfl)
        rw [runReady_cons_note ps prog h0 hc, runReady_cons_note ps prog h0 hc2, ih]
      · have hc2 : ¬(((amGet am2 p).map Prod.snd).sum ≤ 0 ∨ amGet am2 p = []) := by
          push_neg at hc ⊢
          constructor
          · rw [hs2]; exact mul_pos hμ hc.1
          · rw [hgp]
            intro hh
            exact hc.2 ((scaleSnd_eq_nil_iff μ _).mp hh)
        rw [runReady_cons_dist ps prog h0 hc2, runReady_cons_dist ps prog h0 hc]
        rw [hgp, scaleSnd_sum, distribute_scaled st.amt _ _ μ (ne_of_gt hμ) _, ih]

theorem engineLoop_congr {am1 am2 : WMap} (hk : wkeys am2 = wkeys am1)
    (hnd : (wkeys am1).Nodup)
    (hget : ∀ p, ∃ μ : ℚ, 0 < μ ∧ amGet am2 p = scaleSnd μ (amGet am1 p)) :
    ∀ (fuel it : ℕ) (st : EngState),
      engineLoop am2 fuel it st = engineLoop am1 fuel it st := by
  intro fuel
  induction fuel with
  | zero => intro it st; rfl
  | succ fuel ih =>
    intro it st
    have hpr := parentsReady_congr hk hnd hget st.amt
    by_cases hr : parentsReady am1 st.amt = []
    · rw [engineLoop_succ_empty fuel it (hpr.trans hr), engineLoop_succ_empty fuel it hr]
    · rw [engineLoop_succ_ne fuel it (by rw [hpr]; exact hr), engineLoop_succ_ne fuel it hr]
      rw [hpr, runReady_congr hget]
      rcases runReady am1 (parentsReady am1 st.amt) st false with ⟨st2, b⟩
      cases b
      · rfl
      · show engineLoop am2 fuel (it+1) st2 = engineLoop am1 fuel (it+1) st2
        exact ih (it+1) st2

theorem parseAlloc_scaled (lam : String → ℚ) :
    ∀ (a1 a2 : List AllocRow),
    a1.length = a2.length →
    (∀ pr ∈ a1.zip a2,
      pyStrip pr.2.parent_id = pyStrip pr.1.parent_id
      ∧ pyStrip pr.2.child_id = pyStrip pr.1.child_id
      ∧ to_float pr.2.weight
          = (to_float pr.1.weight).map (fun q => lam (pyStrip pr.1.parent_id) * q)) →
    parseAlloc a2 = (parseAlloc a1).map (scaleTriples lam) := by
  intro a1
  induction a1 with
  | nil =>
    intro a2 hlen _
    cases a2 with
    | nil => rfl
    | cons r rs => cases hlen
  | cons r1 rs1 ih =>
    intro a2 hlen hrel
    cases a2 with
    | nil => cases hlen
    | cons r2 rs2 =>
      have hhead := hrel (r1, r2) (by simp)
      have htail := ih rs2 (by simpa using hlen)
        (fun pr hpr => hrel pr (by simp [hpr]))
      rw [parseAlloc, parseAlloc, hhead.2.2]
      cases hw : to_float r1.weight with
      | error e => rfl
      | ok w =>
        show (parseAlloc rs2 >>= _) = _
        rw [htail]
        cases hrest : parseAlloc rs1 with
        | error e => rfl
        | ok rest =>
          show Except.ok _ = Except.ok _
          rw [hhead.1, hhead.2.1]
          rfl

/-- C8: multiplying all raw weights of each parent group by a common positive
factor (e.g. supplying 40/60 instead of 0.4/0.6) leaves every output of
`allocate_costs` — records and notes alike — unchanged, in exact
arithmetic: normalization and the engine's re-normalization are both
proportional. -/
theorem C8_weight_invariance (coa : List CoaRow) (costs : List CostRow)
    (alloc1 alloc2 : List AllocRow) (maxIters : ℕ)
    (lam : String → ℚ) (hlam : ∀ p, 0 < lam p)
    (hlen : alloc1.length = alloc2.length)
    (hrel : ∀ pr ∈ alloc1.zip alloc2,
      pyStrip pr.2.parent_id = pyStrip pr.1.parent_id
      ∧ pyStrip pr.2.child_id = pyStrip pr.1.child_id
      ∧ to_float pr.2.weight
          = (to_float pr.1.weight).map (fun q => lam (pyStrip pr.1.parent_id) * q)) :
    allocate_costs coa costs alloc2 maxIters = allocate_costs coa costs alloc1 maxIters := by
  have hpa2 := parseAlloc_scaled lam alloc1 alloc2 hlen hrel
  cases hpc : parseCosts costs with
  | error e =>
    rw [allocate_costs_error (allocCore_error_costs coa alloc2 maxIters hpc),
      allocate_costs_error (allocCore_error_costs coa alloc1 maxIters hpc)]
  | ok pcs =>
    cases hpa : parseAlloc alloc1 with
    | error e =>
      rw [hpa] at hpa2
      have hpa2' : parseAlloc alloc2 = .error e := hpa2
      rw [allocate_costs_error (allocCore_error_alloc coa maxIters hpc hpa2'),
        allocate_costs_error (allocCore_error_alloc coa maxIters hpc hpa)]
    | ok pal =>
      rw [hpa] at hpa2
      have hpa2' : parseAlloc alloc2 = .ok (scaleTriples lam pal) := hpa2
      have hkeys : wkeys (mkAllocMap (mkAccounts coa) (normalize_weights (scaleTriples lam pal)))
          = wkeys (mkAllocMap (mkAccounts coa) (normalize_weights pal)) := by
        rw [wkeys_mkAllocMap, wkeys_mkAllocMap, wkeys_normalize, wkeys_normalize,
          firstKeys_scaleTriples]
      have hnd1 : (wkeys (mkAllocMap (mkAccounts coa) (normalize_weights pal))).Nodup := by
        rw [wkeys_mkAllocMap, wkeys_normalize]
        exact nodup_firstKeys pal
      have heng := engineLoop_congr hkeys hnd1
        (amGet_map_scaled lam hlam pal (mkAccounts coa)) maxIters 0
        ⟨touchAccounts (mkAccounts coa) (buildAmt pcs), []⟩
      rw [allocate_costs_of_core (allocCore_eq coa maxIters hpc hpa2'),
        allocate_costs_of_core (allocCore_eq coa maxIters hpc hpa)]
      rw [heng]

/-- C8 (witness): 40/60 and 0.4/0.6 give identical results. -/
theorem C8_weight_invariance_witness :
    allocate_costs [⟨"300","","R"⟩,⟨"310","300","E"⟩,⟨"320","300","F"⟩] [⟨"300","100"⟩]
      [⟨"300","310","40"⟩, ⟨"300","320","60"⟩] 10000
    = allocate_costs [⟨"300","","R"⟩,⟨"310","300","E"⟩,⟨"320","300","F"⟩] [⟨"300","100"⟩]
      [⟨"300","310","0.4"⟩, ⟨"300","320","0.6"⟩] 10000 :=
  C8_weight_invariance [⟨"300","","R"⟩,⟨"310","300","E"⟩,⟨"320","300","F"⟩] [⟨"300","100"⟩]
    [⟨"300","310","0.4"⟩, ⟨"300","320","0.6"⟩]
    [⟨"300","310","40"⟩, ⟨"300","320","60"⟩] 10000
    (fun _ => 100) (fun _ => by norm_num) rfl
    (by
      intro pr hpr
      rcases List.mem_cons.mp hpr with h | h
      · subst h
        refine ⟨rfl, rfl, ?_⟩
        simp [to_float, pyStrip, stripSpaces, commaToDot, parseDecimal, splitSign, splitAtExp,
          parseUMantissa, parseExpPart, natOfDigits, Char.isDigit, Char.isWhitespace, Except.map]
        norm_num
      · rcases List.mem_cons.mp h with h | h
        · subst h
          refine ⟨rfl, rfl, ?_⟩
          simp [to_float, pyStrip, stripSpaces, commaToDot, parseDecimal, splitSign, splitAtExp,
            parseUMantissa, parseExpPart, natOfDigits, Char.isDigit, Char.isWhitespace, Except.map]
          norm_num
        · cases h)


/-! ## Claim C7: pass-count bound and the iteration-cap note -/

/-- C7 (counterexample): the claim says the iteration-cap warning note is
never appended for an acyclic chart, but the cap is a caller-supplied
parameter compared against the loop counter after the loop: with the
acyclic two-account chart `A → B` (acyclicity certified by a strictly
increasing level function, so the parent links admit no directed cycle)
and `max_iters = 1`, the single pass that settles the ledger already makes
the counter reach the cap and the warning note is appended. -/
theorem C7_counterexample :
    (∀ x, ¬ Relation.TransGen (edge [⟨"A","","r"⟩, ⟨"B","A","c"⟩]) x x)
    ∧ allocate_costs [⟨"A","","r"⟩, ⟨"B","A","c"⟩] [⟨"A","1"⟩] [⟨"A","B","1"⟩] 1
        = .ok ([⟨"A","","r",0⟩, ⟨"B","A","c",1⟩], [capNote]) := by
  constructor
  · refine no_cycle_of_lvl lvlAB ?_
    intro r hr
    rcases List.mem_cons.mp hr with h | h
    · subst h; simp [lvlAB, pyStrip]
    · rcases List.mem_cons.mp h with h | h
      · subst h; simp [lvlAB, pyStrip]
      · exact absurd h (List.not_mem_nil r)
  · have hp : parseCosts [⟨"A","1"⟩] = .ok [("A", 1)] := by
      simp [parseCosts, to_float, pyStrip, stripSpaces, commaToDot, parseDecimal, splitSign,
        splitAtExp, parseUMantissa, parseExpPart, natOfDigits, Char.isDigit, Char.isWhitespace]
    have ha : parseAlloc [⟨"A","B","1"⟩] = .ok [("A","B",1)] := by
      simp [parseAlloc, to_float, pyStrip, stripSpaces, commaToDot, parseDecimal, splitSign,
        splitAtExp, parseUMantissa, parseExpPart, natOfDigits, Char.isDigit, Char.isWhitespace]
    have hamt : touchAccounts (mkAccounts [⟨"A","","r"⟩, ⟨"B","A","c"⟩])
        (buildAmt [("A", (1:ℚ))]) = [("A",1),("B",0)] := by
      simp [touchAccounts, mkAccounts, buildAmt, dadd, dget, dset, dmem, pyStrip]
    have hmap : mkAllocMap (mkAccounts [⟨"A","","r"⟩, ⟨"B","A","c"⟩])
        (normalize_weights [("A","B",(1:ℚ))]) = [("A",[("B",1)])] := by
      simp [mkAllocMap, mkAccounts, normalize_weights, firstKeys, dedupFirst, groupOf, rawSum,
        childrenOf, pyStrip]
    have hcore := allocCore_eq [⟨"A","","r"⟩, ⟨"B","A","c"⟩] 1 hp ha
    rw [hamt, hmap] at hcore
    have hready : parentsReady [("A",[("B",(1:ℚ))])] [("A",(1:ℚ)),("B",0)] = ["A"] := by
      simp [parentsReady_cons, dget]
    have hrun : runReady [("A",[("B",(1:ℚ))])] ["A"] ⟨[("A",1),("B",0)],[]⟩ false
        = (⟨[("A",0),("B",1)],[]⟩, true) := by
      rw [runReady_cons_dist [] false (by simp [dget]) (by simp [amGet_cons])]
      simp [distribute, dadd, dget, dset, dmem, amGet_cons]
    have heng : engineLoop [("A",[("B",(1:ℚ))])] 1 0 ⟨[("A",1),("B",0)],[]⟩
        = (⟨[("A",0),("B",1)],[]⟩, 1) := by
      show engineLoop _ (0+1) 0 _ = _
      rw [engineLoop_succ_ne 0 0 (by simp [hready])]
      rw [hready, hrun]
      rfl
    rw [heng] at hcore
    rw [allocate_costs_of_core hcore]
    simp [sortRows, insRow, rowLe, mkRow, byId, mkAccounts, pyStrip]

/-- C7 (amended): for every chart of accounts whose rows are stratified by
some level function strictly increasing from parent to child (the form an
acyclic chart's depth function takes) and every cost, key list and
iteration cap, the loop counter of a successful `allocate_costs` run is at
most the maximum account level plus one — each pass empties every capable
parent at the next level — and whenever the caller-supplied cap exceeds
that bound (`maxLvl + 2 ≤ max_iters`, true of the default cap 10000 for
any chart of depth at most 9998) the iteration-cap warning note does not
appear in the returned notes. -/
theorem C7_pass_bound (coa : List CoaRow) (costs : List CostRow)
    (alloc : List AllocRow) (maxIters : ℕ) (st : EngState) (it : ℕ) (am : WMap)
    (accs : List Account) (res : List ResultRow) (notes : List String)
    (lvl : String → ℕ)
    (hcore : allocCore coa costs alloc maxIters = .ok (st, it, am, accs))
    (hok : allocate_costs coa costs alloc maxIters = .ok (res, notes))
    (hlvl : ∀ a ∈ mkAccounts coa, lvl a.parent_id < lvl a.account_id) :
    it ≤ maxLvl coa lvl + 1 ∧ (maxLvl coa lvl + 2 ≤ maxIters → capNote ∉ notes) := by
  have hcore0 := hcore
  cases hp : parseCosts costs with
  | error e =>
    rw [allocCore_error_costs coa alloc maxIters hp] at hcore
    exact absurd hcore (by simp)
  | ok pcs =>
    cases ha : parseAlloc alloc with
    | error e =>
      rw [allocCore_error_alloc coa maxIters hp ha] at hcore
      exact absurd hcore (by simp)
    | ok pal =>
      have hce := allocCore_eq coa maxIters hp ha
      rw [hce] at hcore
      simp only [Except.ok.injEq, Prod.mk.injEq] at hcore
      obtain ⟨hst, hit, ham2, haccs⟩ := hcore
      have hamnd : (wkeys (mkAllocMap (mkAccounts coa) (normalize_weights pal))).Nodup := by
        rw [wkeys_mkAllocMap, wkeys_normalize]
        exact nodup_firstKeys pal
      have HS : ∀ p c,
          c ∈ (amGet (mkAllocMap (mkAccounts coa) (normalize_weights pal)) p).map Prod.fst →
          lvl p < lvl c := by
        intro p c hc
        rcases mkAllocMap_key_declared hc with ⟨a, ha2, hid, hpar⟩
        have := hlvl a ha2
        rw [hid, hpar] at this
        exact this
      have HB : ∀ p, capable (mkAllocMap (mkAccounts coa) (normalize_weights pal)) p →
          lvl p < maxLvl coa lvl := by
        intro p hcap
        rcases List.exists_mem_of_ne_nil _ hcap.1 with ⟨cw, hcw⟩
        have hck : cw.1 ∈ (amGet (mkAllocMap (mkAccounts coa) (normalize_weights pal)) p).map
            Prod.fst := List.mem_map.mpr ⟨cw, hcw, rfl⟩
        have h1 : lvl p < lvl cw.1 := HS p cw.1 hck
        rcases mkAllocMap_key_declared hck with ⟨a, ha2, hid, hpar⟩
        have h2 : lvl cw.1 ≤ maxLvl coa lvl := by
          rw [← hid]
          exact lvl_le_maxLvl lvl ha2
        omega
      have hbound := engineLoop_level_bound
        (mkAllocMap (mkAccounts coa) (normalize_weights pal)) lvl HS hamnd
        (maxLvl coa lvl) HB maxIters 0
        ⟨touchAccounts (mkAccounts coa) (buildAmt pcs), []⟩
        (fun p _ h => absurd h (by omega)) (Nat.zero_le _)
      have hit2 : it ≤ maxLvl coa lvl + 1 := hit ▸ hbound
      refine ⟨hit2, ?_⟩
      intro hcap2
      rw [allocate_costs_of_core hcore0] at hok
      simp only [Except.ok.injEq, Prod.mk.injEq] at hok
      obtain ⟨hres, hnotes⟩ := hok
      have hnle : ¬ maxIters ≤ it := by omega
      rw [if_neg hnle] at hnotes
      rcases engineLoop_notes (mkAllocMap (mkAccounts coa) (normalize_weights pal)) maxIters 0
        ⟨touchAccounts (mkAccounts coa) (buildAmt pcs), []⟩ with ⟨l, hl, hall⟩
      intro hmem
      rw [← hnotes] at hmem
      have hsl : st.notes = l := by
        rw [← hst]
        simpa using hl
      rw [hsl] at hmem
      rcases hall capNote hmem with ⟨q, hq⟩
      exact capNote_ne_noteSkip q hq

/-- C7 (witness): the pass bound applied to a concrete stratified chart
with a cap comfortably above the bound. -/
theorem C7_pass_bound_witness :
    1 ≤ maxLvl [⟨"A","",""⟩, ⟨"B","A",""⟩] lvlAB + 1
    ∧ (maxLvl [⟨"A","",""⟩, ⟨"B","A",""⟩] lvlAB + 2 ≤ 4 → capNote ∉ ([] : List String)) := by
  have hamt : touchAccounts (mkAccounts [⟨"A","",""⟩, ⟨"B","A",""⟩]) (buildAmt [])
      = [("A",0),("B",0)] := by
    simp [touchAccounts, mkAccounts, buildAmt, dadd, dget, dset, dmem, pyStrip]
  have hmap : mkAllocMap (mkAccounts [⟨"A","",""⟩, ⟨"B","A",""⟩]) (normalize_weights [])
      = [] := by
    simp [mkAllocMap, normalize_weights, firstKeys, dedupFirst]
  have hcore := allocCore_eq [⟨"A","",""⟩, ⟨"B","A",""⟩] 4
    (show parseCosts [] = .ok [] from rfl) (show parseAlloc [] = .ok [] from rfl)
  rw [hamt, hmap] at hcore
  rw [engineLoop_pos_empty 0 (by norm_num) (by simp)] at hcore
  have haccs : mkAccounts [⟨"A","",""⟩, ⟨"B","A",""⟩]
      = [⟨"A","",""⟩, ⟨"B","A",""⟩] := by
    simp [mkAccounts, pyStrip]
  rw [haccs] at hcore
  have hok := allocate_costs_of_core hcore
  rw [if_neg (by norm_num)] at hok
  exact C7_pass_bound [⟨"A","",""⟩, ⟨"B","A",""⟩] [] [] 4 ⟨[("A",0),("B",0)],[]⟩ 1 []
    [⟨"A","",""⟩, ⟨"B","A",""⟩]
    (sortRows ([("A",(0:ℚ)),("B",0)].map (mkRow [⟨"A","",""⟩, ⟨"B","A",""⟩]))) [] lvlAB
    hcore hok
    (by
      intro a ha
      simp [mkAccounts, pyStrip] at ha
      rcases ha with h | h <;> subst h <;> simp [lvlAB])


/-- C2: cycle-detection soundness and completeness of `validate_tree`.
If the parent links contain a directed cycle the validator returns
`valid = false` with the cycle message among its messages; if they are
acyclic, the ids have no duplicates and no nonempty parent id dangles,
it returns `valid = true` with an empty message list; and in all cases
`valid = true` holds exactly when the message list is empty. -/
theorem C2_validate_tree (rows : List CoaRow) :
    (HasCycle rows → (validate_tree rows).1 = false ∧ cycleMsg ∈ (validate_tree rows).2)
    ∧ (¬ HasCycle rows → (vids rows).Nodup →
        (∀ p ∈ vparents rows, p = "" ∨ p ∈ vids rows) →
        validate_tree rows = (true, []))
    ∧ ((validate_tree rows).1 = true ↔ (validate_tree rows).2 = []) := by
  refine ⟨?_, ?_, ?_⟩
  · intro hcy
    have hcb : hasCycleB rows = true := (hasCycleB_iff rows).mpr hcy
    constructor
    · simp [validate_tree, hcb]
    · simp [validate_tree, hcb]
  · intro hnc hnd hpar
    have hcb : hasCycleB rows = false := by
      cases hcb : hasCycleB rows
      · rfl
      · exact absurd ((hasCycleB_iff rows).mp hcb) hnc
    have hdup : dupIds (vids rows) = [] := dupIds_eq_nil hnd
    have hbad : (vparents rows).filter
        (fun p => !decide (p = "") && !decide (p ∈ vids rows)) = [] := by
      rw [List.filter_eq_nil_iff]
      intro p hp
      rcases hpar p hp with h | h
      · simp [h]
      · simp [h]
    simp [validate_tree, hcb, hdup, hbad, dedupFirst, sortStr]
  · simp [validate_tree]
/-- C2 (witness): the characterization applied to a one-row chart with a
self-loop and to a one-row acyclic chart. -/
theorem C2_validate_tree_witness :
    ((validate_tree [⟨"A","A","x"⟩]).1 = false ∧ cycleMsg ∈ (validate_tree [⟨"A","A","x"⟩]).2)
    ∧ validate_tree [⟨"A","","x"⟩] = (true, []) :=
  ⟨(C2_validate_tree [⟨"A","A","x"⟩]).1
      ⟨"A", Relation.TransGen.single (by simp [edge, vchildren, pyStrip])⟩,
   (C2_validate_tree [⟨"A","","x"⟩]).2.1
     (by
       rintro ⟨x, hx⟩
       refine no_cycle_of_lvl lvlAB ?_ x hx
       intro r hr
       rcases List.mem_cons.mp hr with h | h
       · subst h; simp [lvlAB, pyStrip]
       · exact absurd h (List.not_mem_nil r))
     (by simp [vids, pyStrip])
     (by
       intro p hp
       simp only [vparents, List.map_cons, List.map_nil, List.mem_singleton] at hp
       left
       rw [hp]
       rfl)⟩

end Cost
